import Mathlib

/-!
Verification development for the value-encoding engine and streaming writer
of `fast_update/copy.py` (django-fast-update).

Modelling conventions:
- Python `str` is modelled as `List Char`, Python `bytes`/`bytearray`/`memoryview`
  as `List Nat` whose entries are below 256.
- Python exceptions are modelled with `Except`: an encoder or writer that can
  raise returns `Except (List Char) _`, the error carrying the message.
- Mutation of the shared `lazy` list is modelled by explicit state passing.
- The side effects of `copy_from` (pipe creation, thread start and join,
  chunk writes, closing the pipe ends, in-memory delivery) are modelled as an
  event trace.
All definitions in namespace `copy` are transcribed from `fast_update/copy.py`.
-/

namespace copy

/-- Worker for `pyReplace`, structurally recursive on a fuel argument so
that the kernel can evaluate it; the fuel only ever decreases alongside the
scanned string, so any fuel at least the string length gives the same
result (`pyReplaceAux_fuel`). -/
def pyReplaceAux (p : Char) (ps rep : List Char) : Nat → List Char → List Char
  | _, [] => []
  | 0, s => s
  | fuel + 1, c :: rest =>
    if (p :: ps).isPrefixOf (c :: rest) then
      rep ++ pyReplaceAux p ps rep fuel (rest.drop ps.length)
    else
      c :: pyReplaceAux p ps rep fuel rest

/-- Python `str.replace(needle, rep)` for a non-empty needle `p :: ps`:
scans left to right, replacing non-overlapping occurrences. -/
def pyReplace (p : Char) (ps rep : List Char) (s : List Char) : List Char :=
  pyReplaceAux p ps rep s.length s

/-- Backslash character. -/
def BS : Char := '\\'

/-- Backspace character. -/
def BB : Char := Char.ofNat 8

/-- Form feed character. -/
def FF : Char := Char.ofNat 12

/-- Newline character. -/
def NL : Char := Char.ofNat 10

/-- Carriage return character. -/
def CR : Char := Char.ofNat 13

/-- Tab character. -/
def TAB : Char := Char.ofNat 9

/-- Vertical tab character. -/
def VT : Char := Char.ofNat 11

/-- NUL character, the `LAZY_PLACEHOLDER` of copy.py. -/
def NULC : Char := Char.ofNat 0

/-- NULL placeholder for COPY FROM: the Python string literal `\\N`. -/
def NULL : List Char := [BS, 'N']

/-- Lazy placeholder string `LAZY_PLACEHOLDER` (one NUL character). -/
def LAZY_PLACEHOLDER : List Char := [NULC]

/-- Lazy placeholder byte `LAZY_PLACEHOLDER_BYTE`. -/
def LAZY_PLACEHOLDER_BYTE : Nat := 0

/-- `text_escape` from copy.py: escape str data for the TEXT format of
COPY FROM.  Backslash is replaced first, then backspace, form feed,
newline, carriage return, tab and vertical tab. -/
def text_escape (v : List Char) : List Char :=
  pyReplace BS [] [BS, BS] v
  |> pyReplace BB [] [BS, 'b']
  |> pyReplace FF [] [BS, 'f']
  |> pyReplace NL [] [BS, 'n']
  |> pyReplace CR [] [BS, 'r']
  |> pyReplace TAB [] [BS, 't']
  |> pyReplace VT [] [BS, 'v']

/-- Per-character view of `text_escape`: what a single character of the
input contributes to the output. -/
def escChar (c : Char) : List Char :=
  if c = BS then [BS, BS]
  else if c = BB then [BS, 'b']
  else if c = FF then [BS, 'f']
  else if c = NL then [BS, 'n']
  else if c = CR then [BS, 'r']
  else if c = TAB then [BS, 't']
  else if c = VT then [BS, 'v']
  else [c]

/-- Inverse of the escape grammar of `text_escape`: a backslash followed by
one of the escape letters decodes to the escaped character; other characters
decode to themselves. -/
def unescChar (c : Char) : Char :=
  if c = BS then BS
  else if c = 'b' then BB
  else if c = 'f' then FF
  else if c = 'n' then NL
  else if c = 'r' then CR
  else if c = 't' then TAB
  else if c = 'v' then VT
  else c

/-- Unescaping for the grammar produced by `text_escape`: scans left to
right, decoding each two-character backslash escape. -/
def unescape : List Char → List Char
  | [] => []
  | c :: rest =>
    if c = BS then
      match rest with
      | [] => [c]
      | d :: rest2 => unescChar d :: unescape rest2
    else c :: unescape rest

/-- The letters that may legally follow a backslash in escaped output. -/
def escLetters : List Char := [BS, 'b', 'f', 'n', 'r', 't', 'v']

/-- Checks that every backslash in a string begins a two-character escape
sequence of the grammar produced by `text_escape` (no raw backslash). -/
def escOk : List Char → Bool
  | [] => true
  | c :: rest =>
    if c = BS then
      match rest with
      | [] => false
      | d :: r2 => escLetters.contains d && escOk r2
    else escOk rest

/-- The six control characters handled by `text_escape` besides backslash. -/
def ctrlChars : List Char := [BB, FF, NL, CR, TAB, VT]

/-- Value of a lowercase ASCII hex digit, as produced by `binascii.b2a_hex`
for each nibble. -/
def hexDigit (d : Nat) : Nat := if d < 10 then 48 + d else 87 + d

/-- Hex pair (as byte values) for one byte of input. -/
def hexPair (b : Nat) : List Nat := [hexDigit (b / 16), hexDigit (b % 16)]

/-- `binascii.b2a_hex`: lowercase hex expansion of a byte string, bytes to
bytes. -/
def b2a_hex (v : List Nat) : List Nat := v.flatMap hexPair

/-- Lowercase hex digit character for a nibble, as in `bytes.hex()`. -/
def hexDigitChar (d : Nat) : Char :=
  match d with
  | 0 => '0' | 1 => '1' | 2 => '2' | 3 => '3' | 4 => '4'
  | 5 => '5' | 6 => '6' | 7 => '7' | 8 => '8' | 9 => '9'
  | 10 => 'a' | 11 => 'b' | 12 => 'c' | 13 => 'd' | 14 => 'e'
  | _ => 'f'

/-- Python `bytes.hex()`: lowercase hex expansion of a byte string, as str. -/
def pyHex (v : List Nat) : List Char :=
  v.flatMap fun b => [hexDigitChar (b / 16), hexDigitChar (b % 16)]

/-- UTF-8 encoding of one character, modelling `str.encode` for the UTF8
connection encoding used by `copy_from`. -/
def utf8Char (c : Char) : List Nat :=
  let n := c.toNat
  if n < 128 then [n]
  else if n < 2048 then [192 + n / 64, 128 + n % 64]
  else if n < 65536 then [224 + n / 4096, 128 + n / 64 % 64, 128 + n % 64]
  else [240 + n / 262144, 128 + n / 4096 % 64, 128 + n / 64 % 64, 128 + n % 64]

/-- UTF-8 encoding of a string. -/
def encodeStr (s : List Char) : List Nat := s.flatMap utf8Char

/-- Decimal digit character. -/
def digitChar (d : Nat) : Char :=
  match d with
  | 0 => '0' | 1 => '1' | 2 => '2' | 3 => '3' | 4 => '4'
  | 5 => '5' | 6 => '6' | 7 => '7' | 8 => '8' | _ => '9'

/-- Worker for `natChars`, structurally recursive on a fuel argument so the
kernel can evaluate it; any fuel at least `n` gives the same result. -/
def natCharsAux : Nat → Nat → List Char
  | 0, n => [digitChar n]
  | fuel + 1, n =>
    if n < 10 then [digitChar n]
    else natCharsAux fuel (n / 10) ++ [digitChar (n % 10)]

/-- Decimal expansion of a natural number (Python `str` of a nonnegative
int). -/
def natChars (n : Nat) : List Char := natCharsAux n n

/-- Python `str` of an int. -/
def intChars (n : Int) : List Char :=
  if n < 0 then '-' :: natChars n.natAbs else natChars n.natAbs

/-- Python values of the types the verified claims touch.  `bool` is a
separate constructor even though Python `bool` subclasses `int`: the
subclass relation lives in the `isinstance` tests below.  A float is
carried as its printed form, which is all the encoders ever use of it. -/
inductive PyVal where
  | none
  | bool (b : Bool)
  | int (n : Int)
  | float (t : List Char)
  | str (s : List Char)
  | bytes (bs : List Nat)
  | memview (bs : List Nat)
  | dict (pairs : List (PyVal × PyVal))

/-- Result of one encoder call: either a Python `str` built by the encoder,
or a non-str value passed through unchanged (the f-string in `copy_from`
renders it later). -/
inductive WireVal where
  | txt (s : List Char)
  | int (n : Int)
  | bool (b : Bool)
  | float (t : List Char)

/-- Python f-string rendering applied by `copy_from` to an encoder result. -/
def fstring : WireVal → List Char
  | .txt s => s
  | .int n => intChars n
  | .bool b => if b then ['T', 'r', 'u', 'e'] else ['F', 'a', 'l', 's', 'e']
  | .float t => t

/-- Python `isinstance(v, int)`: true for `bool` too, because Python `bool`
is a subclass of `int`. -/
def isinstance_int : PyVal → Bool
  | .int _ => true
  | .bool _ => true
  | _ => false

/-- Python `isinstance(v, bool)`. -/
def isinstance_bool : PyVal → Bool
  | .bool _ => true
  | _ => false

/-- Python `isinstance(v, (float, int))`: also true for `bool`. -/
def isinstance_float_int : PyVal → Bool
  | .float _ => true
  | .int _ => true
  | .bool _ => true
  | _ => false

/-- A lazy entry: the raw bytes of one deferred binary value.  In copy.py a
stack entry is the pair `(_lazy_binary, v)`; the writer component is always
`_lazy_binary`, so only `v` needs to be carried. -/
abbrev LazyEntry := List Nat

/-- An encoder takes the value and the lazy sink and either raises (modelled
by `Except.error` carrying the message) or returns the wire fragment
together with the updated sink. -/
abbrev Encoder := PyVal → List LazyEntry → Except (List Char) (WireVal × List LazyEntry)

/-- Encoder `Int` from copy.py: test and pass along int, raise for any
other.  The `int` and `bool` branches together are `isinstance(v, int)`. -/
def Int : Encoder := fun v lazy =>
  match v with
  | .int n => .ok (.int n, lazy)
  | .bool b => .ok (.bool b, lazy)
  | _ => .error (("expected type int").data)

/-- Encoder `IntOrNone`: as `Int`, handling `None` as NULL. -/
def IntOrNone : Encoder := fun v lazy =>
  match v with
  | .none => .ok (.txt NULL, lazy)
  | .int n => .ok (.int n, lazy)
  | .bool b => .ok (.bool b, lazy)
  | _ => .error (("expected type int or None").data)

/-- Encoder `Boolean`: test and pass along bool, raise for any other. -/
def Boolean : Encoder := fun v lazy =>
  match v with
  | .bool b => .ok (.bool b, lazy)
  | _ => .error (("expected type bool").data)

/-- Encoder `BooleanOrNone`. -/
def BooleanOrNone : Encoder := fun v lazy =>
  match v with
  | .none => .ok (.txt NULL, lazy)
  | .bool b => .ok (.bool b, lazy)
  | _ => .error (("expected type bool or None").data)

/-- Encoder `Float`: test and pass along float or int (hence also bool),
raise for any other. -/
def Float : Encoder := fun v lazy =>
  match v with
  | .float t => .ok (.float t, lazy)
  | .int n => .ok (.int n, lazy)
  | .bool b => .ok (.bool b, lazy)
  | _ => .error (("expected types float or int").data)

/-- Encoder `FloatOrNone`. -/
def FloatOrNone : Encoder := fun v lazy =>
  match v with
  | .none => .ok (.txt NULL, lazy)
  | .float t => .ok (.float t, lazy)
  | .int n => .ok (.int n, lazy)
  | .bool b => .ok (.bool b, lazy)
  | _ => .error (("expected types float, int or None").data)

/-- Encoder `Text`: test and escape str, raise for any other. -/
def Text : Encoder := fun v lazy =>
  match v with
  | .str s => .ok (.txt (text_escape s), lazy)
  | _ => .error (("expected type str").data)

/-- Encoder `TextOrNone`. -/
def TextOrNone : Encoder := fun v lazy =>
  match v with
  | .none => .ok (.txt NULL, lazy)
  | .str s => .ok (.txt (text_escape s), lazy)
  | _ => .error (("expected type str or None").data)

/-- Bytes carried by a `memoryview` or `bytes` value. -/
def bytesOf : PyVal → Option (List Nat)
  | .bytes bs => some bs
  | .memview bs => some bs
  | _ => Option.none

/-- Encoder `Binary`: hex-encodes inline when the byte length is at most
4096; defers larger payloads, appending the raw bytes to the lazy sink and
emitting `\\x` followed by the placeholder.  The Python literal
`'\\\\x'` denotes the three characters backslash backslash x. -/
def Binary : Encoder := fun v lazy =>
  match bytesOf v with
  | some bs =>
    if bs.length > 4096 then
      .ok (.txt ([BS, BS, 'x'] ++ LAZY_PLACEHOLDER), lazy ++ [bs])
    else
      .ok (.txt ([BS, BS, 'x'] ++ pyHex bs), lazy)
  | Option.none => .error (("expected types memoryview or bytes").data)

/-- Encoder `BinaryOrNone`. -/
def BinaryOrNone : Encoder := fun v lazy =>
  match v with
  | .none => .ok (.txt NULL, lazy)
  | _ =>
    match bytesOf v with
    | some bs =>
      if bs.length > 4096 then
        .ok (.txt ([BS, BS, 'x'] ++ LAZY_PLACEHOLDER), lazy ++ [bs])
      else
        .ok (.txt ([BS, BS, 'x'] ++ pyHex bs), lazy)
    | Option.none => .error (("expected types memoryview, bytes or None").data)

/-- `quote` from copy.py: wrap in double quotes; an inner double quote is
escaped by two backslashes (the Python literal `'\\\\"'`). -/
def quote (v : List Char) : List Char :=
  '"' :: (pyReplace '"' [] [BS, BS, '"'] v ++ ['"'])

/-- `text_escape_nested` from copy.py: backslash is quadrupled, the six
control characters escape exactly as in `text_escape`. -/
def text_escape_nested (v : List Char) : List Char :=
  pyReplace BS [] [BS, BS, BS, BS] v
  |> pyReplace BB [] [BS, 'b']
  |> pyReplace FF [] [BS, 'f']
  |> pyReplace NL [] [BS, 'n']
  |> pyReplace CR [] [BS, 'r']
  |> pyReplace TAB [] [BS, 't']
  |> pyReplace VT [] [BS, 'v']

/-- Nested SQL NULL token (bareword, unquoted). -/
def SQL_NULL : List Char := ['N', 'U', 'L', 'L']

/-- Join with a separator character (Python `sep.join`). -/
def joinSep (sep : Char) : List (List Char) → List Char
  | [] => []
  | [x] => x
  | x :: xs => x ++ sep :: joinSep sep xs

/-- Renders the hstore pairs in iteration order, failing at the first
non-str key or non-str non-None value, exactly as the loop in `HStore`
does. -/
def hstoreParts : List (PyVal × PyVal) → Except (List Char) (List (List Char))
  | [] => .ok []
  | (k, v) :: rest =>
    match k with
    | .str ks =>
      match v with
      | .none =>
        (hstoreParts rest).map fun ps =>
          (quote (text_escape_nested ks) ++ ['=', '>'] ++ SQL_NULL) :: ps
      | .str vs =>
        (hstoreParts rest).map fun ps =>
          (quote (text_escape_nested ks) ++ ['=', '>'] ++ quote (text_escape_nested vs)) :: ps
      | _ => .error (("expected type str or None for values").data)
    | _ => .error (("expected type str for keys").data)

/-- Encoder `HStore`: expects a dict with str keys and str-or-None values;
renders always-quoted pairs joined by commas. -/
def HStore : Encoder := fun v lazy =>
  match v with
  | .dict pairs => (hstoreParts pairs).map fun ps => (.txt (joinSep ',' ps), lazy)
  | _ => .error (("expected type dict").data)

/-- Encoder `HStoreOrNone`. -/
def HStoreOrNone : Encoder := fun v lazy =>
  match v with
  | .none => .ok (.txt NULL, lazy)
  | .dict pairs => HStore (.dict pairs) lazy
  | _ => .error (("expected type dict or None").data)

/-- Fixed 64KiB slicing used by `_lazy_binary`. -/
def chunks64k (v : List Nat) : List (List Nat) :=
  if v = [] then [] else v.take 65536 :: chunks64k (v.drop 65536)
termination_by v.length
decreasing_by
  rename_i h
  have : v.length ≠ 0 := fun hl => h (List.eq_nil_of_length_eq_zero hl)
  simp only [List.length_drop]
  omega

/-- `_lazy_binary` from copy.py: the bytes written to `f` for one lazy
entry - hex of the whole value when at most 64KiB, otherwise hex of
successive 64KiB slices. -/
def lazy_binary (v : List Nat) : List Nat :=
  if v.length ≤ 65536 then b2a_hex v
  else (chunks64k v).flatMap b2a_hex

/-- The split performed by `data.index(LAZY_PLACEHOLDER_BYTE, idx)` plus the
verbatim copy up to it: bytes strictly before the first placeholder and
bytes strictly after it; `none` when no placeholder remains (Python raises
ValueError there). -/
def findPlaceholder : List Nat → Option (List Nat × List Nat)
  | [] => Option.none
  | b :: t =>
    if b = LAZY_PLACEHOLDER_BYTE then some ([], t)
    else (findPlaceholder t).map fun pr => (b :: pr.1, pr.2)

/-- `write_lazy` from copy.py: scans left to right; the Kth placeholder
byte is replaced by the hex stream of the Kth lazy entry, every other byte
is copied verbatim.  Returns the byte stream written to `f`. -/
def write_lazy (data : List Nat) (stack : List LazyEntry) : Except (List Char) (List Nat) :=
  match stack with
  | [] => .ok data
  | v :: vs =>
    match findPlaceholder data with
    | Option.none => .error (("ValueError: subsection not found").data)
    | some (pre, post) => (write_lazy post vs).map fun t => pre ++ lazy_binary v ++ t

/-- Observable steps of `copy_from`, in order of occurrence.  `encRow` is
instrumentation marking that one record was encoded and appended to the
row buffer (carrying the byte length it contributed); the others are the
side effects of the streaming writer. -/
inductive Ev where
  | encRow (len : Nat)
  | spawnThread
  | writeChunk (bs : List Nat)
  | closeWrite
  | joinThread
  | closeRead
  | memDeliver (bs : List Nat)
deriving DecidableEq

/-- Encodes one record: `zip(encs, get(o))` with each fragment rendered by
the f-string; the lazy sink threads through left to right. -/
def encodeRecord : List (Encoder × PyVal) → List LazyEntry →
    Except (List Char) (List (List Char) × List LazyEntry)
  | [], lazy => .ok ([], lazy)
  | (e, v) :: rest, lazy =>
    match e v lazy with
    | .error m => .error m
    | .ok (fr, l2) =>
      match encodeRecord rest l2 with
      | .error m => .error m
      | .ok (frs, l3) => .ok (fstring fr :: frs, l3)

/-- The bytes one record contributes to the row buffer: tab-joined encoded
fields, encoded to the connection encoding, newline-terminated. -/
def recordBytes (frs : List (List Char)) : List Nat :=
  encodeStr (joinSep TAB frs) ++ [10]

/-- Loop state of `copy_from`: the `use_thread` flag, the row buffer, the
lazy stack, and the trace of events so far. -/
structure CF where
  useThread : Bool
  payload : List Nat
  lazy : List LazyEntry
  tr : List Ev

/-- The chunk loop of `copy_from`: writes full 64KiB chunks while more than
65535 bytes remain, returning the chunks written and the remainder carried
forward. -/
def drainChunks (p : List Nat) : List (List Nat) × List Nat :=
  if h : p.length > 65535 then
    let r := drainChunks (p.drop 65536)
    (p.take 65536 :: r.1, r.2)
  else ([], p)
termination_by p.length
decreasing_by
  simp only [List.length_drop]
  omega

/-- One iteration of the record loop in `copy_from`: encode the record,
append it to the row buffer, then run the size check. -/
def copyFromStep (encs : List Encoder) (st : CF) (record : List PyVal) :
    Except (List Char × List Ev) CF :=
  match encodeRecord (encs.zip record) st.lazy with
  | .error m => .error (m, st.tr)
  | .ok (frs, lz) =>
    let rb := recordBytes frs
    let p := st.payload ++ rb
    let tr0 := st.tr ++ [Ev.encRow rb.length]
    if p.length > 65535 then
      let tr1 := if st.useThread then tr0 else tr0 ++ [Ev.spawnThread]
      if lz.isEmpty then
        let dr := drainChunks p
        .ok ⟨true, dr.2, lz, tr1 ++ dr.1.map Ev.writeChunk⟩
      else
        match write_lazy p lz with
        | .error m => .error (m, tr1)
        | .ok out => .ok ⟨true, [], [], tr1 ++ [Ev.writeChunk out]⟩
    else
      .ok ⟨st.useThread, p, lz, tr0⟩

/-- The part of `copy_from` after the record loop: the final flush and, on
the threaded path, the strict teardown sequence - close the write end,
join the thread, close the read end. -/
def copyFinish (st : CF) : Except (List Char × List Ev) (List Ev) :=
  if st.useThread then
    if st.payload.isEmpty then
      .ok (st.tr ++ [Ev.closeWrite, Ev.joinThread, Ev.closeRead])
    else
      if st.lazy.isEmpty then
        .ok (st.tr ++
          [Ev.writeChunk st.payload, Ev.closeWrite, Ev.joinThread, Ev.closeRead])
      else
        match write_lazy st.payload st.lazy with
        | .error m => .error (m, st.tr)
        | .ok out => .ok (st.tr ++
            [Ev.writeChunk out, Ev.closeWrite, Ev.joinThread, Ev.closeRead])
  else
    if st.payload.isEmpty then
      .ok st.tr
    else
      if st.lazy.isEmpty then
        .ok (st.tr ++ [Ev.memDeliver st.payload])
      else
        match write_lazy st.payload st.lazy with
        | .error m => .error (m, st.tr)
        | .ok out => .ok (st.tr ++ [Ev.memDeliver out])

/-- `copy_from` from copy.py, as the event trace of its side effects.  An
encoder or substitution error carries the trace up to the raise; teardown
does not run in that case, matching exception propagation in Python. -/
def copy_from (encs : List Encoder) (data : List (List PyVal)) :
    Except (List Char × List Ev) (List Ev) :=
  match data.foldlM (copyFromStep encs) ⟨false, [], [], []⟩ with
  | .error e => .error e
  | .ok st => copyFinish st

/-- Field classes for the modelled part of the ENCODERS registry plus
unregistered classes exercising the ancestry walk (`FieldBase` stands for
`models.Field`, `CustomField` for a caller-defined subclass). -/
inductive FieldKlass where
  | AutoField
  | BigAutoField
  | BigIntegerField
  | BinaryField
  | BooleanField
  | CharField
  | EmailField
  | FloatField
  | IntegerField
  | PositiveIntegerField
  | SlugField
  | TextField
  | HStoreField
  | FieldBase
  | CustomField
deriving DecidableEq

/-- The ENCODERS registry restricted to the field classes whose encoders
are modelled here: each class maps to its (strict, nullable) pair. -/
def ENCODERS : List (FieldKlass × (Encoder × Encoder)) := [
  (.AutoField, (Int, IntOrNone)),
  (.BigAutoField, (Int, IntOrNone)),
  (.BigIntegerField, (Int, IntOrNone)),
  (.BinaryField, (Binary, BinaryOrNone)),
  (.BooleanField, (Boolean, BooleanOrNone)),
  (.CharField, (Text, TextOrNone)),
  (.EmailField, (Text, TextOrNone)),
  (.FloatField, (Float, FloatOrNone)),
  (.IntegerField, (Int, IntOrNone)),
  (.PositiveIntegerField, (Int, IntOrNone)),
  (.SlugField, (Text, TextOrNone)),
  (.TextField, (Text, TextOrNone)),
  (.HStoreField, (HStore, HStoreOrNone))]

/-- Python `ENCODERS.get(cls)` over a registry snapshot. -/
def regGet (reg : List (FieldKlass × (Encoder × Encoder))) (cls : FieldKlass) :
    Option (Encoder × Encoder) :=
  (reg.find? fun p => p.1 == cls).map fun p => p.2

/-- A field as `get_encoder` sees it: a concrete field carries its class
ancestry (`type(field).__mro__`, most derived first), its null flag and its
name; a relation field carries its target field. -/
inductive Field where
  | plain (mro : List FieldKlass) (null : Bool) (fname : List Char)
  | rel (target : Field) (fname : List Char)

/-- The mro walk inside `get_encoder`: the first registered hit wins. -/
def mroLookup (reg : List (FieldKlass × (Encoder × Encoder))) :
    List FieldKlass → Option (Encoder × Encoder)
  | [] => Option.none
  | cls :: rest =>
    match regGet reg cls with
    | some enc => some enc
    | Option.none => mroLookup reg rest

/-- `get_encoder` from copy.py: a relation field resolves through its
target field; otherwise the ancestry is walked most-derived first and the
first registered pair supplies the encoder, `enc[field.null]` selecting the
nullable member exactly when the field is nullable; a miss at every level
raises NotImplementedError naming the field. -/
def get_encoder (reg : List (FieldKlass × (Encoder × Encoder))) :
    Field → Except (List Char) Encoder
  | .rel target _ => get_encoder reg target
  | .plain mro null fname =>
    match mroLookup reg mro with
    | some enc => .ok (if null then enc.2 else enc.1)
    | Option.none => .error (("no suitable encoder found for field ").data ++ fname)

/-- `create_columns` from copy.py: comma-joins each `name type` pair, then
applies the three serial-stripping replaces to the whole joined string, in
the order bigserial, smallserial, serial. -/
def create_columns (column_def : List (List Char × List Char)) : List Char :=
  joinSep ',' (column_def.map fun kv => kv.1 ++ ' ' :: kv.2)
  |> pyReplace 'b' (("igserial").data) (("bigint").data)
  |> pyReplace 's' (("mallserial").data) (("smallint").data)
  |> pyReplace 's' (("erial").data) (("integer").data)

/-- The name under which a field is read from a record (`f.attname`). -/
def attname : Field → List Char
  | .plain _ _ n => n
  | .rel _ n => n

/-- Message of the TypeError raised by the item assignment `encs[...] =
encoder` in `copy_update`: `encs` is one component of the tuple of tuples
produced by `zip(*)`, and Python tuples reject item assignment. -/
def tupleSetErr : List Char :=
  ("TypeError: tuple object does not support item assignment").data

/-- The `field_encoders` override step of `copy_update`: iterating the map,
the first entry whose key is among the attnames reaches the tuple item
assignment and raises; when no key matches, the resolved encoders are left
unchanged. -/
def applyFieldEncoders (attnames : List (List Char)) (encs : List Encoder)
    (field_encoders : List (List Char × Encoder)) : Except (List Char) (List Encoder) :=
  if field_encoders.any (fun p => attnames.contains p.1) then .error tupleSetErr
  else .ok encs

/-- The encoder-resolution and streaming part of `copy_update` (the rest of
the orchestrator - DDL, ANALYZE and UPDATE SQL - talks to external
collaborators).  Setup resolves encoders for the primary key and every
local field and then runs the `field_encoders` override; only then does
`copy_from` stream the records, so a setup failure carries an empty event
trace. -/
def copy_update (reg : List (FieldKlass × (Encoder × Encoder))) (pk : Field)
    (fields : List Field) (field_encoders : List (List Char × Encoder))
    (objs : List (List PyVal)) : Except (List Char × List Ev) (List Ev) :=
  let all_fields := pk :: fields
  match all_fields.mapM (get_encoder reg) with
  | .error m => .error (m, [])
  | .ok encs =>
    match applyFieldEncoders (all_fields.map attname) encs field_encoders with
    | .error m => .error (m, [])
    | .ok encs2 => copy_from encs2 objs

/-- True when a string contains no NUL character. -/
def nulFreeStr (s : List Char) : Bool := s.all fun c => c.toNat != 0

/-- True when a value carries no NUL character in any of its textual parts
(the parts the encoders can copy into the wire text). -/
def nulFreeVal : PyVal → Bool
  | .str s => nulFreeStr s
  | .float t => nulFreeStr t
  | .dict ps => ps.all fun p =>
      (match p.1 with
       | .str s => nulFreeStr s
       | _ => true) &&
      (match p.2 with
       | .str s => nulFreeStr s
       | _ => true)
  | _ => true

/-- The row-buffer contents `copy_from` accumulates between flushes: the
loop of `copy_from` without the size check.  This is the byte string the
placeholder invariant speaks about. -/
def buildBuffer (encs : List Encoder) : List (List PyVal) → List LazyEntry →
    Except (List Char) (List Nat × List LazyEntry)
  | [], lazy => .ok ([], lazy)
  | r :: rs, lazy =>
    match encodeRecord (encs.zip r) lazy with
    | .error m => .error m
    | .ok (frs, l2) =>
      match buildBuffer encs rs l2 with
      | .error m => .error m
      | .ok (restBytes, l3) => .ok (recordBytes frs ++ restBytes, l3)

/-- Split a byte string at its placeholder bytes: n placeholders yield n+1
segments, none containing a placeholder. -/
def splitZ : List Nat → List (List Nat)
  | [] => [[]]
  | b :: t =>
    if b = 0 then [] :: splitZ t
    else
      match splitZ t with
      | [] => [[b]]
      | s :: ss => (b :: s) :: ss

/-- Interleave segments with the hex streams of the lazy entries: the Kth
entry lands exactly where the Kth placeholder sat. -/
def weave : List (List Nat) → List LazyEntry → List Nat
  | [], _ => []
  | s :: _, [] => s
  | s :: ss, v :: vs => s ++ lazy_binary v ++ weave ss vs

/-- Invariant an encoder must satisfy for unambiguous lazy substitution: on
a NUL-free input it appends exactly one lazy entry per placeholder byte its
fragment contributes to the buffer, in order, and nothing else. -/
def EncoderZeroInv (e : Encoder) : Prop :=
  ∀ v lazy fr lz, nulFreeVal v = true → e v lazy = Except.ok (fr, lz) →
    ∃ news, lz = lazy ++ news ∧ (encodeStr (fstring fr)).count 0 = news.length

/-- Teardown events of the streaming writer. -/
def isTeardown : Ev → Bool
  | .closeWrite => true
  | .joinThread => true
  | .closeRead => true
  | _ => false

/-- Pipe-write events of the streaming writer. -/
def isWriteChunk : Ev → Bool
  | .writeChunk _ => true
  | _ => false

/-- In-memory delivery events of the small-batch path. -/
def isMemDeliver : Ev → Bool
  | .memDeliver _ => true
  | _ => false

/-- Total number of bytes the encoded records contributed to the row
buffer, read off the trace. -/
def sumEnc : List Ev → Nat
  | [] => 0
  | .encRow n :: t => n + sumEnc t
  | _ :: t => sumEnc t

/-- Invariant of the `copy_from` loop state tying the `use_thread` flag to
the accumulated encoded byte count and constraining the trace. -/
def CFInv (st : CF) : Prop :=
  (∀ e ∈ st.tr, isTeardown e = false) ∧
  (∀ e ∈ st.tr, isMemDeliver e = false) ∧
  st.tr.count Ev.spawnThread = (if st.useThread then 1 else 0) ∧
  (st.useThread = true ↔ 65535 < sumEnc st.tr) ∧
  (st.useThread = false →
    st.payload.length = sumEnc st.tr ∧ ∀ e ∈ st.tr, isWriteChunk e = false)

/-- A well-typed hstore pair: str key, str-or-None value. -/
def hstoreWellTyped (p : PyVal × PyVal) : Prop :=
  (∃ ks, p.1 = PyVal.str ks) ∧ (p.2 = PyVal.none ∨ ∃ vs, p.2 = PyVal.str vs)

/-- The pattern occurs somewhere in the string (as a contiguous substring). -/
def occursIn (pat s : List Char) : Prop := ∃ a b, s = a ++ pat ++ b

/-- The action of the three serial-stripping replaces of `create_columns`
on a single type token. -/
def stripSerialType (v : List Char) : List Char :=
  pyReplace 'b' (("igserial").data) (("bigint").data) v
  |> pyReplace 's' (("mallserial").data) (("smallint").data)
  |> pyReplace 's' (("erial").data) (("integer").data)

theorem pyReplaceAux_fuel (p : Char) (ps rep : List Char) :
    ∀ f1 f2 s, s.length ≤ f1 → s.length ≤ f2 →
      pyReplaceAux p ps rep f1 s = pyReplaceAux p ps rep f2 s := by
  intro f1
  induction f1 with
  | zero =>
    intro f2 s h1 _
    have : s = [] := List.eq_nil_of_length_eq_zero (Nat.le_zero.mp h1)
    subst this
    cases f2 <;> rfl
  | succ g1 ih =>
    intro f2 s h1 h2
    cases s with
    | nil => cases f2 <;> rfl
    | cons c rest =>
    cases f2 with
    | zero => simp at h2
    | succ g2 =>
      simp only [pyReplaceAux]
      by_cases hp : (p :: ps).isPrefixOf (c :: rest)
      · rw [if_pos hp, if_pos hp]
        have hd : (rest.drop ps.length).length ≤ g1 := by
          simp only [List.length_drop]
          simp only [List.length_cons] at h1
          omega
        have hd2 : (rest.drop ps.length).length ≤ g2 := by
          simp only [List.length_drop]
          simp only [List.length_cons] at h2
          omega
        rw [ih g2 (rest.drop ps.length) hd hd2]
      · rw [if_neg hp, if_neg hp]
        have hr : rest.length ≤ g1 := by
          simp only [List.length_cons] at h1; omega
        have hr2 : rest.length ≤ g2 := by
          simp only [List.length_cons] at h2; omega
        rw [ih g2 rest hr hr2]

theorem pyReplace_nil (p : Char) (ps rep : List Char) :
    pyReplace p ps rep [] = [] := rfl

theorem pyReplace_cons (p : Char) (ps rep : List Char) (c : Char) (rest : List Char) :
    pyReplace p ps rep (c :: rest) =
      if (p :: ps).isPrefixOf (c :: rest) then
        rep ++ pyReplace p ps rep (rest.drop ps.length)
      else
        c :: pyReplace p ps rep rest := by
  show pyReplaceAux p ps rep (rest.length + 1) (c :: rest) = _
  simp only [pyReplaceAux]
  by_cases hp : (p :: ps).isPrefixOf (c :: rest)
  · rw [if_pos hp, if_pos hp]
    unfold pyReplace
    rw [pyReplaceAux_fuel p ps rep rest.length (rest.drop ps.length).length
      (rest.drop ps.length) (by simp only [List.length_drop]; omega) (le_refl _)]
  · rw [if_neg hp, if_neg hp]
    rfl

theorem pyReplace_single (c : Char) (rep : List Char) (s : List Char) :
    pyReplace c [] rep s = s.flatMap (fun x => if x = c then rep else [x]) := by
  induction s with
  | nil => simp [pyReplace_nil]
  | cons x t ih =>
    rw [pyReplace_cons]
    by_cases h : x = c
    · subst h
      simp [List.isPrefixOf, ih]
    · have hbeq : (c == x) = false := by
        simp [beq_iff_eq]
        exact fun hh => h hh.symm
      simp [List.isPrefixOf, hbeq, h, ih]

theorem flatMap_flatMap (l : List α) (f : α → List β) (g : β → List γ) :
    (l.flatMap f).flatMap g = l.flatMap fun a => (f a).flatMap g := by
  induction l with
  | nil => simp
  | cons x t ih => simp [List.flatMap_cons, List.flatMap_append, ih]

theorem flatMap_congr_mem {l : List α} {f g : α → List β}
    (h : ∀ a ∈ l, f a = g a) : l.flatMap f = l.flatMap g := by
  induction l with
  | nil => simp
  | cons x t ih =>
    simp only [List.flatMap_cons]
    rw [h x (List.mem_cons_self x t), ih fun a ha => h a (List.mem_cons_of_mem x ha)]

theorem text_escape_eq_flatMap (s : List Char) :
    text_escape s = s.flatMap escChar := by
  unfold text_escape
  rw [pyReplace_single BS, pyReplace_single BB, flatMap_flatMap,
    pyReplace_single FF, flatMap_flatMap,
    pyReplace_single NL, flatMap_flatMap,
    pyReplace_single CR, flatMap_flatMap,
    pyReplace_single TAB, flatMap_flatMap,
    pyReplace_single VT, flatMap_flatMap]
  apply flatMap_congr_mem
  intro a _
  by_cases h1 : a = BS
  · subst h1; decide
  by_cases h2 : a = BB
  · subst h2; decide
  by_cases h3 : a = FF
  · subst h3; decide
  by_cases h4 : a = NL
  · subst h4; decide
  by_cases h5 : a = CR
  · subst h5; decide
  by_cases h6 : a = TAB
  · subst h6; decide
  by_cases h7 : a = VT
  · subst h7; decide
  · simp [escChar, h1, h2, h3, h4, h5, h6, h7]

theorem unescape_cons_ne (a : Char) (y : List Char) (h : ¬a = BS) :
    unescape (a :: y) = a :: unescape y := by
  rw [unescape.eq_def]
  simp [h]

theorem unescape_escChar (a : Char) (y : List Char) :
    unescape (escChar a ++ y) = a :: unescape y := by
  by_cases h1 : a = BS
  · subst h1; simp [escChar, unescape, unescChar]
  by_cases h2 : a = BB
  · subst h2; simp only [escChar]; norm_num [unescape, unescChar] <;> decide
  by_cases h3 : a = FF
  · subst h3; simp only [escChar]; norm_num [unescape, unescChar] <;> decide
  by_cases h4 : a = NL
  · subst h4; simp only [escChar]; norm_num [unescape, unescChar] <;> decide
  by_cases h5 : a = CR
  · subst h5; simp only [escChar]; norm_num [unescape, unescChar] <;> decide
  by_cases h6 : a = TAB
  · subst h6; simp only [escChar]; norm_num [unescape, unescChar] <;> decide
  by_cases h7 : a = VT
  · subst h7; simp only [escChar]; norm_num [unescape, unescChar] <;> decide
  · simp only [escChar, if_neg h1, if_neg h2, if_neg h3, if_neg h4, if_neg h5,
      if_neg h6, if_neg h7, List.cons_append, List.nil_append]
    exact unescape_cons_ne a y h1

theorem unescape_flatMap_escChar (s : List Char) :
    unescape (s.flatMap escChar) = s := by
  induction s with
  | nil => simp [unescape]
  | cons a t ih =>
    rw [List.flatMap_cons, unescape_escChar, ih]

theorem escOk_cons_ne (a : Char) (y : List Char) (h : ¬a = BS) :
    escOk (a :: y) = escOk y := by
  rw [escOk.eq_def]
  simp [h]

theorem escOk_escChar (a : Char) (y : List Char) :
    escOk (escChar a ++ y) = escOk y := by
  by_cases h1 : a = BS
  · subst h1; simp [escChar, escOk, escLetters]
  by_cases h2 : a = BB
  · subst h2; simp only [escChar]; norm_num [escOk, escLetters] <;> decide
  by_cases h3 : a = FF
  · subst h3; simp only [escChar]; norm_num [escOk, escLetters] <;> decide
  by_cases h4 : a = NL
  · subst h4; simp only [escChar]; norm_num [escOk, escLetters] <;> decide
  by_cases h5 : a = CR
  · subst h5; simp only [escChar]; norm_num [escOk, escLetters] <;> decide
  by_cases h6 : a = TAB
  · subst h6; simp only [escChar]; norm_num [escOk, escLetters] <;> decide
  by_cases h7 : a = VT
  · subst h7; simp only [escChar]; norm_num [escOk, escLetters] <;> decide
  · simp only [escChar, if_neg h1, if_neg h2, if_neg h3, if_neg h4, if_neg h5,
      if_neg h6, if_neg h7, List.cons_append, List.nil_append]
    exact escOk_cons_ne a y h1

theorem escOk_flatMap_escChar (s : List Char) :
    escOk (s.flatMap escChar) = true := by
  induction s with
  | nil => rfl
  | cons a t ih => rw [List.flatMap_cons, escOk_escChar, ih]

theorem mem_escChar_not_ctrl (a c : Char) (hc : c ∈ escChar a) :
    c ∉ ctrlChars := by
  by_cases h1 : a = BS
  · subst h1; simp only [escChar, if_pos rfl] at hc
    fin_cases hc <;> decide
  by_cases h2 : a = BB
  · subst h2; simp only [escChar] at hc; norm_num at hc
    fin_cases hc <;> decide
  by_cases h3 : a = FF
  · subst h3; simp only [escChar] at hc; norm_num at hc
    fin_cases hc <;> decide
  by_cases h4 : a = NL
  · subst h4; simp only [escChar] at hc; norm_num at hc
    fin_cases hc <;> decide
  by_cases h5 : a = CR
  · subst h5; simp only [escChar] at hc; norm_num at hc
    fin_cases hc <;> decide
  by_cases h6 : a = TAB
  · subst h6; simp only [escChar] at hc; norm_num at hc
    fin_cases hc <;> decide
  by_cases h7 : a = VT
  · subst h7; simp only [escChar] at hc; norm_num at hc
    fin_cases hc <;> decide
  · simp only [escChar, if_neg h1, if_neg h2, if_neg h3, if_neg h4, if_neg h5,
      if_neg h6, if_neg h7, List.mem_singleton] at hc
    subst hc
    simp [ctrlChars, h2, h3, h4, h5, h6, h7]

theorem natCharsAux_fuel :
    ∀ f1 f2 n, n ≤ f1 → n ≤ f2 → natCharsAux f1 n = natCharsAux f2 n := by
  intro f1
  induction f1 with
  | zero =>
    intro f2 n h1 _
    have : n = 0 := Nat.le_zero.mp h1
    subst this
    cases f2 with
    | zero => rfl
    | succ g2 => simp [natCharsAux, digitChar]
  | succ g1 ih =>
    intro f2 n h1 h2
    cases f2 with
    | zero =>
      have : n = 0 := Nat.le_zero.mp h2
      subst this
      simp [natCharsAux, digitChar]
    | succ g2 =>
      simp only [natCharsAux]
      by_cases hn : n < 10
      · rw [if_pos hn, if_pos hn]
      · rw [if_neg hn, if_neg hn]
        have hq1 : n / 10 ≤ g1 := by
          have := Nat.div_lt_self (by omega : 0 < n) (by omega : 1 < 10)
          omega
        have hq2 : n / 10 ≤ g2 := by
          have := Nat.div_lt_self (by omega : 0 < n) (by omega : 1 < 10)
          omega
        rw [ih g2 (n / 10) hq1 hq2]

theorem natChars_eq (n : Nat) :
    natChars n = if n < 10 then [digitChar n]
      else natChars (n / 10) ++ [digitChar (n % 10)] := by
  show natCharsAux n n = _
  by_cases hn : n < 10
  · rw [if_pos hn]
    cases n with
    | zero => rfl
    | succ m => simp only [natCharsAux, if_pos hn]
  · rw [if_neg hn]
    cases n with
    | zero => omega
    | succ m =>
      simp only [natCharsAux, if_neg hn]
      rw [natCharsAux_fuel m ((m + 1) / 10) ((m + 1) / 10)
        (by have := Nat.div_lt_self (by omega : 0 < m + 1) (by omega : 1 < 10); omega)
        (le_refl _)]
      rfl

theorem utf8Char_zero_iff (c : Char) : (0 : Nat) ∈ utf8Char c ↔ c.toNat = 0 := by
  unfold utf8Char
  by_cases h1 : c.toNat < 128
  · simp only [if_pos h1, List.mem_singleton]
    omega
  by_cases h2 : c.toNat < 2048
  · simp only [if_neg h1, if_pos h2, List.mem_cons, List.not_mem_nil, or_false]
    constructor
    · rintro (h | h) <;> omega
    · intro h; exfalso; omega
  by_cases h3 : c.toNat < 65536
  · simp only [if_neg h1, if_neg h2, if_pos h3, List.mem_cons, List.not_mem_nil, or_false]
    constructor
    · rintro (h | h | h) <;> omega
    · intro h; exfalso; omega
  · simp only [if_neg h1, if_neg h2, if_neg h3, List.mem_cons, List.not_mem_nil, or_false]
    constructor
    · rintro (h | h | h | h) <;> omega
    · intro h; exfalso; omega

theorem count_zero_utf8Char (c : Char) (hc : c.toNat ≠ 0) :
    (utf8Char c).count 0 = 0 := by
  rw [List.count_eq_zero]
  intro hmem
  exact hc ((utf8Char_zero_iff c).mp hmem)

theorem encodeStr_cons (c : Char) (t : List Char) :
    encodeStr (c :: t) = utf8Char c ++ encodeStr t := rfl

theorem count_zero_encodeStr (s : List Char) (hs : nulFreeStr s = true) :
    (encodeStr s).count 0 = 0 := by
  induction s with
  | nil => rfl
  | cons c t ih =>
    simp only [nulFreeStr, List.all_cons, Bool.and_eq_true] at hs
    have hc : c.toNat ≠ 0 := by
      have := hs.1
      simpa using this
    have ht : nulFreeStr t = true := hs.2
    rw [encodeStr_cons, List.count_append, count_zero_utf8Char c hc, ih ht]

theorem nulFreeStr_append (a b : List Char) :
    nulFreeStr (a ++ b) = (nulFreeStr a && nulFreeStr b) := by
  simp [nulFreeStr, List.all_append]

theorem encodeStr_append (a b : List Char) :
    encodeStr (a ++ b) = encodeStr a ++ encodeStr b := by
  simp [encodeStr, List.flatMap_append]

theorem digitChar_toNat_ne_zero (d : Nat) : (digitChar d).toNat ≠ 0 := by
  rcases d with _|_|_|_|_|_|_|_|_|d
  all_goals first
    | decide
    | exact (show (('9')).toNat ≠ 0 from by decide)

theorem hexDigitChar_toNat_ne_zero (d : Nat) : (hexDigitChar d).toNat ≠ 0 := by
  rcases d with _|_|_|_|_|_|_|_|_|_|_|_|_|_|_|d
  all_goals first
    | decide
    | exact (show (('f')).toNat ≠ 0 from by decide)

theorem utf8Char_hexDigitChar (d : Nat) (hd : d < 16) :
    utf8Char (hexDigitChar d) = [hexDigit d] := by
  interval_cases d <;> decide

theorem natChars_nulFree (n : Nat) : nulFreeStr (natChars n) = true := by
  induction n using Nat.strong_induction_on with
  | _ n ih =>
    rw [natChars_eq]
    by_cases hn : n < 10
    · simp only [if_pos hn, nulFreeStr, List.all_cons, List.all_nil, Bool.and_true]
      simpa using digitChar_toNat_ne_zero n
    · simp only [if_neg hn]
      rw [nulFreeStr_append]
      have h1 := ih (n / 10) (Nat.div_lt_self (by omega) (by omega))
      have h2 : nulFreeStr [digitChar (n % 10)] = true := by
        simp only [nulFreeStr, List.all_cons, List.all_nil, Bool.and_true]
        simpa using digitChar_toNat_ne_zero (n % 10)
      rw [h1, h2]
      rfl

theorem intChars_nulFree : ∀ n, nulFreeStr (intChars n) = true := by
  intro n
  unfold intChars
  by_cases hn : n < 0
  · simp only [if_pos hn]
    have := natChars_nulFree n.natAbs
    simp only [nulFreeStr, List.all_cons, Bool.and_eq_true]
    exact ⟨by decide, this⟩
  · simp only [if_neg hn]
    exact natChars_nulFree n.natAbs

theorem pyHex_nulFree (bs : List Nat) : nulFreeStr (pyHex bs) = true := by
  induction bs with
  | nil => rfl
  | cons b t ih =>
    show nulFreeStr ([hexDigitChar (b / 16), hexDigitChar (b % 16)] ++ pyHex t) = true
    rw [nulFreeStr_append, ih, Bool.and_true]
    simp only [nulFreeStr, List.all_cons, List.all_nil, Bool.and_true, Bool.and_eq_true]
    exact ⟨by simpa using hexDigitChar_toNat_ne_zero (b / 16),
      by simpa using hexDigitChar_toNat_ne_zero (b % 16)⟩

theorem chunks64k_join : ∀ (n : Nat) (v : List Nat), v.length ≤ n →
    (chunks64k v).flatMap id = v := by
  intro n
  induction n with
  | zero =>
    intro v hv
    have : v = [] := List.eq_nil_of_length_eq_zero (Nat.le_zero.mp hv)
    subst this
    simp [chunks64k]
  | succ m ih =>
    intro v hv
    by_cases he : v = []
    · subst he; simp [chunks64k]
    · rw [chunks64k, if_neg he]
      rw [List.flatMap_cons]
      have hlen : (v.drop 65536).length ≤ m := by
        simp only [List.length_drop]
        have : 1 ≤ v.length := by
          cases v with
          | nil => exact absurd rfl he
          | cons a t => simp
        omega
      rw [ih (v.drop 65536) hlen]
      simp [List.take_append_drop]

theorem b2a_hex_append (a b : List Nat) :
    b2a_hex (a ++ b) = b2a_hex a ++ b2a_hex b := by
  simp [b2a_hex, List.flatMap_append]

/-- `_lazy_binary` writes exactly the hex expansion of the whole value: the
64KiB slicing changes nothing in the byte stream. -/
theorem lazy_binary_eq_b2a_hex (v : List Nat) : lazy_binary v = b2a_hex v := by
  unfold lazy_binary
  by_cases hl : v.length ≤ 65536
  · rw [if_pos hl]
  · rw [if_neg hl]
    have h1 : (chunks64k v).flatMap b2a_hex = ((chunks64k v).flatMap id).flatMap hexPair := by
      rw [flatMap_flatMap]
      rfl
    rw [h1, chunks64k_join v.length v (le_refl _)]
    rfl

theorem encodeStr_pyHex (bs : List Nat) (hb : ∀ b ∈ bs, b < 256) :
    encodeStr (pyHex bs) = b2a_hex bs := by
  induction bs with
  | nil => rfl
  | cons b t ih =>
    have hb256 : b < 256 := hb b (List.mem_cons_self b t)
    have hhi : b / 16 < 16 := by omega
    have hlo : b % 16 < 16 := by omega
    show encodeStr ([hexDigitChar (b / 16), hexDigitChar (b % 16)] ++ pyHex t) =
      hexPair b ++ b2a_hex t
    rw [encodeStr_append, ih fun x hx => hb x (List.mem_cons_of_mem b hx)]
    congr 1
    show utf8Char (hexDigitChar (b / 16)) ++ (utf8Char (hexDigitChar (b % 16)) ++ []) = _
    rw [utf8Char_hexDigitChar _ hhi, utf8Char_hexDigitChar _ hlo]
    rfl

theorem findPlaceholder_append (pre post : List Nat) (hpre : (0 : Nat) ∉ pre) :
    findPlaceholder (pre ++ 0 :: post) = some (pre, post) := by
  induction pre with
  | nil => simp [findPlaceholder, LAZY_PLACEHOLDER_BYTE]
  | cons b t ih =>
    have hb : b ≠ 0 := fun h => hpre (h ▸ List.mem_cons_self b t)
    have ht : (0 : Nat) ∉ t := fun h => hpre (List.mem_cons_of_mem b h)
    simp only [List.cons_append, findPlaceholder, LAZY_PLACEHOLDER_BYTE, if_neg hb]
    rw [show t.append (0 :: post) = t ++ 0 :: post from rfl, ih ht]
    rfl

theorem findPlaceholder_none (d : List Nat) (h : findPlaceholder d = Option.none) :
    d.count 0 = 0 := by
  induction d with
  | nil => rfl
  | cons b t ih =>
    by_cases hb : b = LAZY_PLACEHOLDER_BYTE
    · simp [findPlaceholder, hb] at h
    · simp only [findPlaceholder, if_neg hb] at h
      have ht : findPlaceholder t = Option.none := by
        cases hfp : findPlaceholder t with
        | none => rfl
        | some pr => rw [hfp] at h; simp at h
      rw [List.count_cons, ih ht]
      have hbz : b ≠ 0 := hb
      simp [hbz, Ne.symm hbz]

theorem findPlaceholder_some (d : List Nat) (pre post : List Nat)
    (h : findPlaceholder d = some (pre, post)) :
    d = pre ++ 0 :: post ∧ (0 : Nat) ∉ pre ∧
      d.count 0 = post.count 0 + 1 ∧ splitZ d = pre :: splitZ post := by
  induction d generalizing pre post with
  | nil => simp [findPlaceholder] at h
  | cons b t ih =>
    by_cases hb : b = LAZY_PLACEHOLDER_BYTE
    · have hb0 : b = 0 := hb
      subst hb0
      rw [show findPlaceholder (0 :: t) = some ([], t) from by
        simp [findPlaceholder, LAZY_PLACEHOLDER_BYTE]] at h
      simp only [Option.some.injEq, Prod.mk.injEq] at h
      obtain ⟨h1, h2⟩ := h
      subst h1
      subst h2
      refine ⟨rfl, by simp, ?_, ?_⟩
      · rw [List.count_cons]
        simp
      · simp [splitZ]
    · simp only [findPlaceholder, if_neg hb] at h
      cases hfp : findPlaceholder t with
      | none => rw [hfp] at h; simp at h
      | some pr =>
        rw [hfp] at h
        have h2 : (b :: pr.1, pr.2) = (pre, post) := Option.some.inj h
        obtain ⟨ht1, ht2, ht3, ht4⟩ := ih pr.1 pr.2 hfp
        have hbz : b ≠ 0 := hb
        have hpre : pre = b :: pr.1 := ((congrArg Prod.fst h2).symm : pre = b :: pr.1)
        have hpost : post = pr.2 := ((congrArg Prod.snd h2).symm : post = pr.2)
        subst hpre
        subst hpost
        refine ⟨?_, ?_, ?_, ?_⟩
        · simp [List.cons_append, ← ht1]
        · intro hmem
          rcases List.mem_cons.mp hmem with h0 | h0
          · exact hbz h0.symm
          · exact ht2 h0
        · rw [List.count_cons, ht1, List.count_append]
          have hc1 : pr.1.count 0 = 0 := List.count_eq_zero.mpr ht2
          have hc2 : (0 :: pr.2).count 0 = pr.2.count 0 + 1 := by
            rw [List.count_cons]
            simp
          rw [hc1, hc2]
          simp [hbz]
        · simp only [splitZ, if_neg hbz, ht4]

theorem write_lazy_weave : ∀ (stack : List LazyEntry) (data : List Nat),
    data.count 0 = stack.length →
    write_lazy data stack = Except.ok (weave (splitZ data) stack) := by
  intro stack
  induction stack with
  | nil =>
    intro data hc
    have : splitZ data = [data] := by
      induction data with
      | nil => rfl
      | cons b t ihd =>
        rw [List.count_cons] at hc
        have hb : ¬(0 = b) := by
          intro he
          simp [← he] at hc
        have ht : t.count 0 = 0 := by
          simp [fun hce : (0:Nat) = b => hb hce] at hc
          omega
        have hbne : b ≠ 0 := fun he => hb he.symm
        simp only [splitZ, if_neg hbne, ihd ht]
    rw [write_lazy, this]
    rfl
  | cons v vs ih =>
    intro data hc
    cases hfp : findPlaceholder data with
    | none =>
      have := findPlaceholder_none data hfp
      rw [this] at hc
      simp at hc
    | some pr =>
      obtain ⟨pre, post⟩ := pr
      obtain ⟨hd, hpre, hcount, hsplit⟩ := findPlaceholder_some data pre post
        (by rw [hfp])
      have hcpost : post.count 0 = vs.length := by
        rw [hcount] at hc
        simpa using hc
      rw [write_lazy, hfp]
      dsimp only
      rw [ih post hcpost]
      rw [hsplit]
      rfl

theorem nulFreeStr_iff (s : List Char) :
    nulFreeStr s = true ↔ ∀ c ∈ s, c.toNat ≠ 0 := by
  simp [nulFreeStr, List.all_eq_true]

theorem nulFreeStr_cons (c : Char) (l : List Char) :
    nulFreeStr (c :: l) = ((c.toNat != 0) && nulFreeStr l) := by
  simp [nulFreeStr]

theorem pyReplace_single_nulFree (c : Char) (rep s : List Char)
    (hrep : nulFreeStr rep = true) (hs : nulFreeStr s = true) :
    nulFreeStr (pyReplace c [] rep s) = true := by
  rw [pyReplace_single, nulFreeStr_iff]
  intro x hx
  rcases List.mem_flatMap.mp hx with ⟨a, ha, hxa⟩
  by_cases hac : a = c
  · rw [if_pos hac] at hxa
    exact (nulFreeStr_iff rep).mp hrep x hxa
  · rw [if_neg hac] at hxa
    have hx2 : x = a := List.mem_singleton.mp hxa
    subst hx2
    exact (nulFreeStr_iff s).mp hs x ha

theorem text_escape_nulFree (s : List Char) (hs : nulFreeStr s = true) :
    nulFreeStr (text_escape s) = true := by
  unfold text_escape
  refine pyReplace_single_nulFree _ _ _ (by decide) ?_
  refine pyReplace_single_nulFree _ _ _ (by decide) ?_
  refine pyReplace_single_nulFree _ _ _ (by decide) ?_
  refine pyReplace_single_nulFree _ _ _ (by decide) ?_
  refine pyReplace_single_nulFree _ _ _ (by decide) ?_
  refine pyReplace_single_nulFree _ _ _ (by decide) ?_
  exact pyReplace_single_nulFree _ _ _ (by decide) hs

theorem text_escape_nested_nulFree (s : List Char) (hs : nulFreeStr s = true) :
    nulFreeStr (text_escape_nested s) = true := by
  unfold text_escape_nested
  refine pyReplace_single_nulFree _ _ _ (by decide) ?_
  refine pyReplace_single_nulFree _ _ _ (by decide) ?_
  refine pyReplace_single_nulFree _ _ _ (by decide) ?_
  refine pyReplace_single_nulFree _ _ _ (by decide) ?_
  refine pyReplace_single_nulFree _ _ _ (by decide) ?_
  refine pyReplace_single_nulFree _ _ _ (by decide) ?_
  exact pyReplace_single_nulFree _ _ _ (by decide) hs

theorem quote_nulFree (s : List Char) (hs : nulFreeStr s = true) :
    nulFreeStr (quote s) = true := by
  unfold quote
  rw [nulFreeStr_cons, nulFreeStr_append]
  have h1 : nulFreeStr (pyReplace '"' [] [BS, BS, '"'] s) = true :=
    pyReplace_single_nulFree _ _ _ (by decide) hs
  rw [h1]
  decide

theorem joinSep_nulFree (sep : Char) (hsep : sep.toNat ≠ 0) :
    ∀ parts : List (List Char), (∀ pt ∈ parts, nulFreeStr pt = true) →
      nulFreeStr (joinSep sep parts) = true := by
  intro parts
  induction parts with
  | nil => intro _; rfl
  | cons x xs ih =>
    intro hall
    cases xs with
    | nil => exact hall x (List.mem_singleton.mpr rfl)
    | cons y rest =>
      show nulFreeStr (x ++ sep :: joinSep sep (y :: rest)) = true
      rw [nulFreeStr_append, nulFreeStr_cons]
      rw [hall x (List.mem_cons_self x _)]
      rw [ih fun pt hpt => hall pt (List.mem_cons_of_mem x hpt)]
      simp [hsep]

theorem hstoreParts_nulFree :
    ∀ (pairs : List (PyVal × PyVal)) (parts : List (List Char)),
      nulFreeVal (PyVal.dict pairs) = true →
      hstoreParts pairs = Except.ok parts →
      ∀ pt ∈ parts, nulFreeStr pt = true := by
  intro pairs
  induction pairs with
  | nil =>
    intro parts _ hok
    simp only [hstoreParts, Except.ok.injEq] at hok
    subst hok
    intro pt hpt
    simp at hpt
  | cons kv rest ih =>
    intro parts hnf hok
    obtain ⟨k, v⟩ := kv
    have hnf2 : nulFreeVal (PyVal.dict rest) = true := by
      simp only [nulFreeVal, List.all_cons, Bool.and_eq_true] at hnf
      simp only [nulFreeVal]
      exact hnf.2
    cases k with
    | str ks =>
      have hks : nulFreeStr ks = true := by
        simp only [nulFreeVal, List.all_cons, Bool.and_eq_true] at hnf
        exact hnf.1.1
      cases v with
      | none =>
        simp only [hstoreParts] at hok
        cases hrest : hstoreParts rest with
        | error m =>
          rw [hrest] at hok
          exact Except.noConfusion hok
        | ok ps =>
          rw [hrest] at hok
          have hok2 : ((quote (text_escape_nested ks) ++ ['=', '>'] ++ SQL_NULL) :: ps)
              = parts := Except.ok.inj hok
          subst hok2
          intro pt hpt
          rcases List.mem_cons.mp hpt with hpt1 | hpt2
          · subst hpt1
            rw [nulFreeStr_append, nulFreeStr_append,
              quote_nulFree _ (text_escape_nested_nulFree ks hks)]
            decide
          · exact ih ps hnf2 hrest pt hpt2
      | str vs =>
        have hvs : nulFreeStr vs = true := by
          simp only [nulFreeVal, List.all_cons, Bool.and_eq_true] at hnf
          exact hnf.1.2
        simp only [hstoreParts] at hok
        cases hrest : hstoreParts rest with
        | error m =>
          rw [hrest] at hok
          exact Except.noConfusion hok
        | ok ps =>
          rw [hrest] at hok
          have hok2 : ((quote (text_escape_nested ks) ++ ['=', '>'] ++
              quote (text_escape_nested vs)) :: ps) = parts := Except.ok.inj hok
          subst hok2
          intro pt hpt
          rcases List.mem_cons.mp hpt with hpt1 | hpt2
          · subst hpt1
            rw [nulFreeStr_append, nulFreeStr_append,
              quote_nulFree _ (text_escape_nested_nulFree ks hks),
              quote_nulFree _ (text_escape_nested_nulFree vs hvs)]
            decide
          · exact ih ps hnf2 hrest pt hpt2
      | bool b => exact Except.noConfusion hok
      | int n => exact Except.noConfusion hok
      | float t => exact Except.noConfusion hok
      | bytes bs => exact Except.noConfusion hok
      | memview bs => exact Except.noConfusion hok
      | dict ps2 => exact Except.noConfusion hok
    | none => exact Except.noConfusion hok
    | bool b => exact Except.noConfusion hok
    | int n => exact Except.noConfusion hok
    | float t => exact Except.noConfusion hok
    | bytes bs => exact Except.noConfusion hok
    | memview bs => exact Except.noConfusion hok
    | dict ps2 => exact Except.noConfusion hok

theorem zeroInv_pass (fr0 : WireVal) (lazy : List LazyEntry) (fr : WireVal)
    (lz : List LazyEntry)
    (he : (Except.ok (fr0, lazy) : Except (List Char) (WireVal × List LazyEntry)) =
      Except.ok (fr, lz))
    (hc : (encodeStr (fstring fr0)).count 0 = 0) :
    ∃ news, lz = lazy ++ news ∧ (encodeStr (fstring fr)).count 0 = news.length := by
  have h2 := Except.ok.inj he
  have hfr : fr = fr0 := (congrArg Prod.fst h2).symm
  have hlz : lz = lazy := (congrArg Prod.snd h2).symm
  subst hfr
  subst hlz
  exact ⟨[], by simp, hc⟩

theorem count_zero_intWire : ∀ n, (encodeStr (fstring (WireVal.int n))).count 0 = 0 :=
  fun n => count_zero_encodeStr _ (intChars_nulFree n)

theorem count_zero_boolWire (b : Bool) :
    (encodeStr (fstring (WireVal.bool b))).count 0 = 0 := by
  cases b <;> decide

theorem count_zero_nullWire : (encodeStr (fstring (WireVal.txt NULL))).count 0 = 0 := by
  decide

theorem zeroInv_Int : EncoderZeroInv Int := by
  intro v lazy fr lz hnf he
  cases v with
  | int n =>
    simp only [Int] at he
    exact zeroInv_pass _ _ _ _ he (count_zero_intWire n)
  | bool b =>
    simp only [Int] at he
    exact zeroInv_pass _ _ _ _ he (count_zero_boolWire b)
  | none => exact Except.noConfusion he
  | float t => exact Except.noConfusion he
  | str s => exact Except.noConfusion he
  | bytes bs => exact Except.noConfusion he
  | memview bs => exact Except.noConfusion he
  | dict ps => exact Except.noConfusion he

theorem zeroInv_IntOrNone : EncoderZeroInv IntOrNone := by
  intro v lazy fr lz hnf he
  cases v with
  | none =>
    simp only [IntOrNone] at he
    exact zeroInv_pass _ _ _ _ he count_zero_nullWire
  | int n =>
    simp only [IntOrNone] at he
    exact zeroInv_pass _ _ _ _ he (count_zero_intWire n)
  | bool b =>
    simp only [IntOrNone] at he
    exact zeroInv_pass _ _ _ _ he (count_zero_boolWire b)
  | float t => exact Except.noConfusion he
  | str s => exact Except.noConfusion he
  | bytes bs => exact Except.noConfusion he
  | memview bs => exact Except.noConfusion he
  | dict ps => exact Except.noConfusion he

theorem zeroInv_Boolean : EncoderZeroInv Boolean := by
  intro v lazy fr lz hnf he
  cases v with
  | bool b =>
    simp only [Boolean] at he
    exact zeroInv_pass _ _ _ _ he (count_zero_boolWire b)
  | none => exact Except.noConfusion he
  | int n => exact Except.noConfusion he
  | float t => exact Except.noConfusion he
  | str s => exact Except.noConfusion he
  | bytes bs => exact Except.noConfusion he
  | memview bs => exact Except.noConfusion he
  | dict ps => exact Except.noConfusion he

theorem zeroInv_BooleanOrNone : EncoderZeroInv BooleanOrNone := by
  intro v lazy fr lz hnf he
  cases v with
  | none =>
    simp only [BooleanOrNone] at he
    exact zeroInv_pass _ _ _ _ he count_zero_nullWire
  | bool b =>
    simp only [BooleanOrNone] at he
    exact zeroInv_pass _ _ _ _ he (count_zero_boolWire b)
  | int n => exact Except.noConfusion he
  | float t => exact Except.noConfusion he
  | str s => exact Except.noConfusion he
  | bytes bs => exact Except.noConfusion he
  | memview bs => exact Except.noConfusion he
  | dict ps => exact Except.noConfusion he

theorem zeroInv_Float : EncoderZeroInv Float := by
  intro v lazy fr lz hnf he
  cases v with
  | float t =>
    simp only [Float] at he
    exact zeroInv_pass _ _ _ _ he (count_zero_encodeStr _ (by simpa [nulFreeVal] using hnf))
  | int n =>
    simp only [Float] at he
    exact zeroInv_pass _ _ _ _ he (count_zero_intWire n)
  | bool b =>
    simp only [Float] at he
    exact zeroInv_pass _ _ _ _ he (count_zero_boolWire b)
  | none => exact Except.noConfusion he
  | str s => exact Except.noConfusion he
  | bytes bs => exact Except.noConfusion he
  | memview bs => exact Except.noConfusion he
  | dict ps => exact Except.noConfusion he

theorem zeroInv_FloatOrNone : EncoderZeroInv FloatOrNone := by
  intro v lazy fr lz hnf he
  cases v with
  | none =>
    simp only [FloatOrNone] at he
    exact zeroInv_pass _ _ _ _ he count_zero_nullWire
  | float t =>
    simp only [FloatOrNone] at he
    exact zeroInv_pass _ _ _ _ he (count_zero_encodeStr _ (by simpa [nulFreeVal] using hnf))
  | int n =>
    simp only [FloatOrNone] at he
    exact zeroInv_pass _ _ _ _ he (count_zero_intWire n)
  | bool b =>
    simp only [FloatOrNone] at he
    exact zeroInv_pass _ _ _ _ he (count_zero_boolWire b)
  | str s => exact Except.noConfusion he
  | bytes bs => exact Except.noConfusion he
  | memview bs => exact Except.noConfusion he
  | dict ps => exact Except.noConfusion he

theorem zeroInv_Text : EncoderZeroInv Text := by
  intro v lazy fr lz hnf he
  cases v with
  | str s =>
    simp only [Text] at he
    have hnfs : nulFreeStr s = true := by simpa [nulFreeVal] using hnf
    exact zeroInv_pass _ _ _ _ he
      (count_zero_encodeStr _ (text_escape_nulFree s hnfs))
  | none => exact Except.noConfusion he
  | bool b => exact Except.noConfusion he
  | int n => exact Except.noConfusion he
  | float t => exact Except.noConfusion he
  | bytes bs => exact Except.noConfusion he
  | memview bs => exact Except.noConfusion he
  | dict ps => exact Except.noConfusion he

theorem zeroInv_TextOrNone : EncoderZeroInv TextOrNone := by
  intro v lazy fr lz hnf he
  cases v with
  | none =>
    simp only [TextOrNone] at he
    exact zeroInv_pass _ _ _ _ he count_zero_nullWire
  | str s =>
    simp only [TextOrNone] at he
    have hnfs : nulFreeStr s = true := by simpa [nulFreeVal] using hnf
    exact zeroInv_pass _ _ _ _ he
      (count_zero_encodeStr _ (text_escape_nulFree s hnfs))
  | bool b => exact Except.noConfusion he
  | int n => exact Except.noConfusion he
  | float t => exact Except.noConfusion he
  | bytes bs => exact Except.noConfusion he
  | memview bs => exact Except.noConfusion he
  | dict ps => exact Except.noConfusion he

theorem count_zero_binaryInline (bs : List Nat) :
    (encodeStr (fstring (WireVal.txt ([BS, BS, 'x'] ++ pyHex bs)))).count 0 = 0 := by
  show (encodeStr ([BS, BS, 'x'] ++ pyHex bs)).count 0 = 0
  rw [encodeStr_append, List.count_append, count_zero_encodeStr _ (pyHex_nulFree bs)]
  decide

theorem zeroInv_binary_core (bs : List Nat) (lazy : List LazyEntry) (fr : WireVal)
    (lz : List LazyEntry)
    (he : ((if bs.length > 4096 then
        Except.ok (WireVal.txt ([BS, BS, 'x'] ++ LAZY_PLACEHOLDER), lazy ++ [bs])
      else
        Except.ok (WireVal.txt ([BS, BS, 'x'] ++ pyHex bs), lazy)) :
        Except (List Char) (WireVal × List LazyEntry)) = Except.ok (fr, lz)) :
    ∃ news, lz = lazy ++ news ∧ (encodeStr (fstring fr)).count 0 = news.length := by
  by_cases hlen : bs.length > 4096
  · rw [if_pos hlen] at he
    have h2 := Except.ok.inj he
    have hfr : fr = WireVal.txt ([BS, BS, 'x'] ++ LAZY_PLACEHOLDER) :=
      (congrArg Prod.fst h2).symm
    have hlz : lz = lazy ++ [bs] := (congrArg Prod.snd h2).symm
    subst hfr
    subst hlz
    refine ⟨[bs], rfl, ?_⟩
    show (encodeStr ([BS, BS, 'x'] ++ LAZY_PLACEHOLDER)).count 0 = 1
    decide
  · rw [if_neg hlen] at he
    exact zeroInv_pass _ _ _ _ he (count_zero_binaryInline bs)

theorem zeroInv_Binary : EncoderZeroInv Binary := by
  intro v lazy fr lz hnf he
  cases v with
  | bytes bs =>
    simp only [Binary, bytesOf] at he
    exact zeroInv_binary_core bs lazy fr lz he
  | memview bs =>
    simp only [Binary, bytesOf] at he
    exact zeroInv_binary_core bs lazy fr lz he
  | none => exact Except.noConfusion he
  | bool b => exact Except.noConfusion he
  | int n => exact Except.noConfusion he
  | float t => exact Except.noConfusion he
  | str s => exact Except.noConfusion he
  | dict ps => exact Except.noConfusion he

theorem zeroInv_BinaryOrNone : EncoderZeroInv BinaryOrNone := by
  intro v lazy fr lz hnf he
  cases v with
  | none =>
    simp only [BinaryOrNone] at he
    exact zeroInv_pass _ _ _ _ he count_zero_nullWire
  | bytes bs =>
    simp only [BinaryOrNone, bytesOf] at he
    exact zeroInv_binary_core bs lazy fr lz he
  | memview bs =>
    simp only [BinaryOrNone, bytesOf] at he
    exact zeroInv_binary_core bs lazy fr lz he
  | bool b => exact Except.noConfusion he
  | int n => exact Except.noConfusion he
  | float t => exact Except.noConfusion he
  | str s => exact Except.noConfusion he
  | dict ps => exact Except.noConfusion he

theorem zeroInv_HStore : EncoderZeroInv HStore := by
  intro v lazy fr lz hnf he
  cases v with
  | dict ps =>
    simp only [HStore] at he
    cases hp : hstoreParts ps with
    | error m =>
      rw [hp] at he
      exact Except.noConfusion he
    | ok parts =>
      rw [hp] at he
      have hparts := hstoreParts_nulFree ps parts hnf hp
      exact zeroInv_pass _ _ _ _ he
        (count_zero_encodeStr _ (joinSep_nulFree ',' (by decide) parts hparts))
  | none => exact Except.noConfusion he
  | bool b => exact Except.noConfusion he
  | int n => exact Except.noConfusion he
  | float t => exact Except.noConfusion he
  | str s => exact Except.noConfusion he
  | bytes bs => exact Except.noConfusion he
  | memview bs => exact Except.noConfusion he

theorem zeroInv_HStoreOrNone : EncoderZeroInv HStoreOrNone := by
  intro v lazy fr lz hnf he
  cases v with
  | none =>
    simp only [HStoreOrNone] at he
    exact zeroInv_pass _ _ _ _ he count_zero_nullWire
  | dict ps =>
    simp only [HStoreOrNone] at he
    exact zeroInv_HStore (PyVal.dict ps) lazy fr lz hnf he
  | bool b => exact Except.noConfusion he
  | int n => exact Except.noConfusion he
  | float t => exact Except.noConfusion he
  | str s => exact Except.noConfusion he
  | bytes bs => exact Except.noConfusion he
  | memview bs => exact Except.noConfusion he

theorem encodeRecord_zeroInv :
    ∀ (pairs : List (Encoder × PyVal)) (lazy : List LazyEntry)
      (frs : List (List Char)) (lz : List LazyEntry),
      (∀ p ∈ pairs, EncoderZeroInv p.1) →
      (∀ p ∈ pairs, nulFreeVal p.2 = true) →
      encodeRecord pairs lazy = Except.ok (frs, lz) →
      ∃ news, lz = lazy ++ news ∧
        (frs.map fun f => (encodeStr f).count 0).sum = news.length := by
  intro pairs
  induction pairs with
  | nil =>
    intro lazy frs lz _ _ hok
    simp only [encodeRecord] at hok
    have h2 := Except.ok.inj hok
    have hfrs : frs = [] := (congrArg Prod.fst h2).symm
    have hlz : lz = lazy := (congrArg Prod.snd h2).symm
    subst hfrs
    subst hlz
    exact ⟨[], by simp, by simp⟩
  | cons p rest ih =>
    intro lazy frs lz hinv hnf hok
    obtain ⟨e, v⟩ := p
    simp only [encodeRecord] at hok
    cases hev : e v lazy with
    | error m => rw [hev] at hok; exact Except.noConfusion hok
    | ok out =>
      obtain ⟨fr, l2⟩ := out
      rw [hev] at hok
      dsimp only at hok
      cases hrest : encodeRecord rest l2 with
      | error m => rw [hrest] at hok; exact Except.noConfusion hok
      | ok out2 =>
        obtain ⟨frs2, l3⟩ := out2
        rw [hrest] at hok
        have h2 := Except.ok.inj hok
        have hfrs : frs = fstring fr :: frs2 := (congrArg Prod.fst h2).symm
        have hlz : lz = l3 := (congrArg Prod.snd h2).symm
        subst hfrs
        subst hlz
        obtain ⟨news1, hl2, hc1⟩ :=
          hinv (e, v) (List.mem_cons_self _ _) v lazy fr l2
            (hnf (e, v) (List.mem_cons_self _ _)) hev
        obtain ⟨news2, hl3, hc2⟩ := ih l2 frs2 lz
          (fun q hq => hinv q (List.mem_cons_of_mem _ hq))
          (fun q hq => hnf q (List.mem_cons_of_mem _ hq)) hrest
        refine ⟨news1 ++ news2, ?_, ?_⟩
        · rw [hl3, hl2, List.append_assoc]
        · simp only [List.map_cons, List.sum_cons, hc1, hc2, List.length_append]

theorem count_zero_joinTab : ∀ frs : List (List Char),
    (encodeStr (joinSep TAB frs)).count 0 =
      (frs.map fun f => (encodeStr f).count 0).sum := by
  intro frs
  induction frs with
  | nil => rfl
  | cons x xs ih =>
    cases xs with
    | nil => simp [joinSep]
    | cons y rest =>
      show (encodeStr (x ++ TAB :: joinSep TAB (y :: rest))).count 0 = _
      rw [encodeStr_append, encodeStr_cons, List.count_append, List.count_append]
      have hTab : (utf8Char TAB).count 0 = 0 := by decide
      rw [hTab, ih]
      simp [List.sum_cons]

theorem count_zero_recordBytes (frs : List (List Char)) :
    (recordBytes frs).count 0 = (frs.map fun f => (encodeStr f).count 0).sum := by
  unfold recordBytes
  rw [List.count_append, count_zero_joinTab]
  simp

theorem buildBuffer_zeroInv (encs : List Encoder)
    (hinv : ∀ e ∈ encs, EncoderZeroInv e) :
    ∀ (rows : List (List PyVal)) (lazy0 : List LazyEntry)
      (payload : List Nat) (lz : List LazyEntry),
      (∀ r ∈ rows, ∀ v ∈ r, nulFreeVal v = true) →
      buildBuffer encs rows lazy0 = Except.ok (payload, lz) →
      ∃ news, lz = lazy0 ++ news ∧ payload.count 0 = news.length := by
  intro rows
  induction rows with
  | nil =>
    intro lazy0 payload lz _ hok
    simp only [buildBuffer] at hok
    have h2 := Except.ok.inj hok
    have hp : payload = [] := (congrArg Prod.fst h2).symm
    have hlz : lz = lazy0 := (congrArg Prod.snd h2).symm
    subst hp
    subst hlz
    exact ⟨[], by simp, by simp⟩
  | cons r rs ih =>
    intro lazy0 payload lz hnf hok
    simp only [buildBuffer] at hok
    cases her : encodeRecord (encs.zip r) lazy0 with
    | error m => rw [her] at hok; exact Except.noConfusion hok
    | ok out =>
      obtain ⟨frs, l2⟩ := out
      rw [her] at hok
      dsimp only at hok
      cases hbb : buildBuffer encs rs l2 with
      | error m => rw [hbb] at hok; exact Except.noConfusion hok
      | ok out2 =>
        obtain ⟨restBytes, l3⟩ := out2
        rw [hbb] at hok
        have h2 := Except.ok.inj hok
        have hp : payload = recordBytes frs ++ restBytes := (congrArg Prod.fst h2).symm
        have hlz : lz = l3 := (congrArg Prod.snd h2).symm
        subst hp
        subst hlz
        obtain ⟨news1, hl2, hc1⟩ := encodeRecord_zeroInv (encs.zip r) lazy0 frs l2
          (fun q hq => by
            obtain ⟨e, v⟩ := q
            exact hinv e (List.of_mem_zip hq).1)
          (fun q hq => by
            obtain ⟨e, v⟩ := q
            exact hnf r (List.mem_cons_self _ _) v (List.of_mem_zip hq).2)
          her
        obtain ⟨news2, hl3, hc2⟩ := ih l2 restBytes lz
          (fun q hq => hnf q (List.mem_cons_of_mem _ hq)) hbb
        refine ⟨news1 ++ news2, ?_, ?_⟩
        · rw [hl3, hl2, List.append_assoc]
        · rw [List.count_append, count_zero_recordBytes, hc1, hc2, List.length_append]

theorem hstoreParts_wellTyped :
    ∀ pairs : List (PyVal × PyVal), (∀ p ∈ pairs, hstoreWellTyped p) →
      hstoreParts pairs = Except.ok (pairs.map fun p =>
        match p with
        | (PyVal.str ks, PyVal.none) =>
            quote (text_escape_nested ks) ++ ['=', '>'] ++ SQL_NULL
        | (PyVal.str ks, PyVal.str vs) =>
            quote (text_escape_nested ks) ++ ['=', '>'] ++ quote (text_escape_nested vs)
        | _ => []) := by
  intro pairs
  induction pairs with
  | nil => intro _; rfl
  | cons kv rest ih =>
    intro hwt
    obtain ⟨k, v⟩ := kv
    obtain ⟨⟨ks, hk⟩, hv⟩ := hwt (k, v) (List.mem_cons_self _ _)
    have hk2 : k = PyVal.str ks := hk
    subst hk2
    have hrest := ih fun p hp => hwt p (List.mem_cons_of_mem _ hp)
    rcases hv with hv | ⟨vs, hv⟩
    · have hv2 : v = PyVal.none := hv
      subst hv2
      simp only [hstoreParts, hrest, Except.map, List.map_cons]
    · have hv2 : v = PyVal.str vs := hv
      subst hv2
      simp only [hstoreParts, hrest, Except.map, List.map_cons]

theorem hstoreParts_badKey :
    ∀ (pre : List (PyVal × PyVal)) (k v : PyVal) (rest : List (PyVal × PyVal)),
      (∀ p ∈ pre, hstoreWellTyped p) → (∀ ks, k ≠ PyVal.str ks) →
      hstoreParts (pre ++ (k, v) :: rest) =
        Except.error (("expected type str for keys").data) := by
  intro pre
  induction pre with
  | nil =>
    intro k v rest _ hk
    cases k with
    | str ks => exact absurd rfl (hk ks)
    | none => rfl
    | bool b => rfl
    | int n => rfl
    | float t => rfl
    | bytes bs => rfl
    | memview bs => rfl
    | dict ps => rfl
  | cons p pre2 ih =>
    intro k v rest hwt hk
    obtain ⟨k1, v1⟩ := p
    obtain ⟨⟨ks1, hk1⟩, hv1⟩ := hwt (k1, v1) (List.mem_cons_self _ _)
    have hk12 : k1 = PyVal.str ks1 := hk1
    subst hk12
    have hrec := ih k v rest (fun q hq => hwt q (List.mem_cons_of_mem _ hq)) hk
    rcases hv1 with hv1 | ⟨vs1, hv1⟩
    · have hv12 : v1 = PyVal.none := hv1
      subst hv12
      show hstoreParts ((PyVal.str ks1, PyVal.none) :: (pre2 ++ (k, v) :: rest)) = _
      simp only [hstoreParts, hrec, Except.map]
    · have hv12 : v1 = PyVal.str vs1 := hv1
      subst hv12
      show hstoreParts ((PyVal.str ks1, PyVal.str vs1) :: (pre2 ++ (k, v) :: rest)) = _
      simp only [hstoreParts, hrec, Except.map]

theorem hstoreParts_badValue :
    ∀ (pre : List (PyVal × PyVal)) (ks : List Char) (v : PyVal)
      (rest : List (PyVal × PyVal)),
      (∀ p ∈ pre, hstoreWellTyped p) → v ≠ PyVal.none → (∀ vs, v ≠ PyVal.str vs) →
      hstoreParts (pre ++ (PyVal.str ks, v) :: rest) =
        Except.error (("expected type str or None for values").data) := by
  intro pre
  induction pre with
  | nil =>
    intro ks v rest _ hvn hvs
    cases v with
    | none => exact absurd rfl hvn
    | str vs => exact absurd rfl (hvs vs)
    | bool b => rfl
    | int n => rfl
    | float t => rfl
    | bytes bs => rfl
    | memview bs => rfl
    | dict ps => rfl
  | cons p pre2 ih =>
    intro ks v rest hwt hvn hvs
    obtain ⟨k1, v1⟩ := p
    obtain ⟨⟨ks1, hk1⟩, hv1⟩ := hwt (k1, v1) (List.mem_cons_self _ _)
    have hk12 : k1 = PyVal.str ks1 := hk1
    subst hk12
    have hrec := ih ks v rest (fun q hq => hwt q (List.mem_cons_of_mem _ hq)) hvn hvs
    rcases hv1 with hv1 | ⟨vs1, hv1⟩
    · have hv12 : v1 = PyVal.none := hv1
      subst hv12
      show hstoreParts ((PyVal.str ks1, PyVal.none) :: (pre2 ++ (PyVal.str ks, v) :: rest)) = _
      simp only [hstoreParts, hrec, Except.map]
    · have hv12 : v1 = PyVal.str vs1 := hv1
      subst hv12
      show hstoreParts ((PyVal.str ks1, PyVal.str vs1) :: (pre2 ++ (PyVal.str ks, v) :: rest)) = _
      simp only [hstoreParts, hrec, Except.map]


theorem sumEnc_append (a b : List Ev) : sumEnc (a ++ b) = sumEnc a + sumEnc b := by
  induction a with
  | nil => simp [sumEnc]
  | cons e t ih =>
    cases e <;> simp [sumEnc, ih] <;> omega

theorem sumEnc_map_writeChunk (cs : List (List Nat)) :
    sumEnc (cs.map Ev.writeChunk) = 0 := by
  induction cs with
  | nil => rfl
  | cons c t ih => simp [sumEnc, ih]

theorem count_spawn_map_writeChunk (cs : List (List Nat)) :
    (cs.map Ev.writeChunk).count Ev.spawnThread = 0 := by
  induction cs with
  | nil => rfl
  | cons c t ih => simp [List.count_cons, ih]

theorem map_writeChunk_not_teardown (cs : List (List Nat)) :
    ∀ e ∈ cs.map Ev.writeChunk, isTeardown e = false := by
  intro e he
  rcases List.mem_map.mp he with ⟨c, _, rfl⟩
  rfl

theorem map_writeChunk_not_mem_deliver (cs : List (List Nat)) :
    ∀ e ∈ cs.map Ev.writeChunk, isMemDeliver e = false := by
  intro e he
  rcases List.mem_map.mp he with ⟨c, _, rfl⟩
  rfl

theorem CFInv_init : CFInv ⟨false, [], [], []⟩ := by
  refine ⟨?_, ?_, ?_, ?_, ?_⟩
  · intro e he; simp at he
  · intro e he; simp at he
  · rfl
  · constructor
    · intro h; exact absurd h (by simp)
    · intro h; simp [sumEnc] at h
  · intro _
    exact ⟨rfl, fun e he => by simp at he⟩



theorem copyFromStep_ok_inv (encs : List Encoder) (st : CF) (r : List PyVal)
    (st2 : CF) (h : copyFromStep encs st r = Except.ok st2) (hinv : CFInv st) :
    CFInv st2 := by
  obtain ⟨h1, h2, h3, h4, h5⟩ := hinv
  unfold copyFromStep at h
  cases hok : encodeRecord (encs.zip r) st.lazy with
  | error m => rw [hok] at h; exact Except.noConfusion h
  | ok out =>
    obtain ⟨frs, lz⟩ := out
    rw [hok] at h
    dsimp only at h
    set rb := recordBytes frs with hrb
    set n := rb.length with hn
    have htr0td : ∀ e ∈ st.tr ++ [Ev.encRow n], isTeardown e = false := by
      rw [List.forall_mem_append]
      exact ⟨h1, by intro e he; rw [List.mem_singleton.mp he]; rfl⟩
    have htr0md : ∀ e ∈ st.tr ++ [Ev.encRow n], isMemDeliver e = false := by
      rw [List.forall_mem_append]
      exact ⟨h2, by intro e he; rw [List.mem_singleton.mp he]; rfl⟩
    have htr0wc : (∀ e ∈ st.tr, isWriteChunk e = false) →
        ∀ e ∈ st.tr ++ [Ev.encRow n], isWriteChunk e = false := by
      intro hwc
      rw [List.forall_mem_append]
      exact ⟨hwc, by intro e he; rw [List.mem_singleton.mp he]; rfl⟩
    have htr0sum : sumEnc (st.tr ++ [Ev.encRow n]) = sumEnc st.tr + n := by
      rw [sumEnc_append]
      rfl
    have htr0count : (st.tr ++ [Ev.encRow n]).count Ev.spawnThread =
        st.tr.count Ev.spawnThread := by
      rw [List.count_append]
      simp
    by_cases hsize : (st.payload ++ rb).length > 65535
    · rw [if_pos hsize] at h
      have htr1 : ∀ tr1 : List Ev,
          (tr1 = if st.useThread then st.tr ++ [Ev.encRow n]
            else (st.tr ++ [Ev.encRow n]) ++ [Ev.spawnThread]) →
          (∀ e ∈ tr1, isTeardown e = false) ∧ (∀ e ∈ tr1, isMemDeliver e = false) ∧
            tr1.count Ev.spawnThread = 1 ∧ 65535 < sumEnc tr1 := by
        intro tr1 htr1e
        cases hut : st.useThread with
        | true =>
          rw [hut] at htr1e
          rw [if_pos rfl] at htr1e
          subst htr1e
          refine ⟨htr0td, htr0md, ?_, ?_⟩
          · rw [htr0count, h3, hut]
            rfl
          · rw [htr0sum]
            have := h4.mp hut
            omega
        | false =>
          rw [hut] at htr1e
          rw [if_neg (by simp)] at htr1e
          subst htr1e
          refine ⟨?_, ?_, ?_, ?_⟩
          · rw [List.forall_mem_append]
            exact ⟨htr0td, by intro e he; rw [List.mem_singleton.mp he]; rfl⟩
          · rw [List.forall_mem_append]
            exact ⟨htr0md, by intro e he; rw [List.mem_singleton.mp he]; rfl⟩
          · rw [List.count_append, htr0count, h3, hut]
            simp [List.count_cons]
          · rw [sumEnc_append, htr0sum]
            have h0 : sumEnc [Ev.spawnThread] = 0 := rfl
            rw [h0]
            have hp := (h5 hut).1
            rw [List.length_append] at hsize
            omega
      by_cases hlz : lz.isEmpty = true
      · rw [if_pos hlz] at h
        have hst2 := Except.ok.inj h
        subst hst2
        obtain ⟨ht1, ht2, ht3, ht4⟩ := htr1 _ rfl
        refine ⟨?_, ?_, ?_, ?_, ?_⟩
        · rw [List.forall_mem_append]
          exact ⟨ht1, map_writeChunk_not_teardown _⟩
        · rw [List.forall_mem_append]
          exact ⟨ht2, map_writeChunk_not_mem_deliver _⟩
        · rw [List.count_append, ht3, count_spawn_map_writeChunk]
          rfl
        · simp only [true_iff]
          rw [sumEnc_append, sumEnc_map_writeChunk]
          omega

        · intro hcontra
          exact absurd hcontra (by simp)
      · rw [if_neg hlz] at h
        cases hwl : write_lazy (st.payload ++ rb) lz with
        | error m => rw [hwl] at h; exact Except.noConfusion h
        | ok out2 =>
          rw [hwl] at h
          have hst2 := Except.ok.inj h
          subst hst2
          obtain ⟨ht1, ht2, ht3, ht4⟩ := htr1 _ rfl
          refine ⟨?_, ?_, ?_, ?_, ?_⟩
          · rw [List.forall_mem_append]
            exact ⟨ht1, by intro e he; rw [List.mem_singleton.mp he]; rfl⟩
          · rw [List.forall_mem_append]
            exact ⟨ht2, by intro e he; rw [List.mem_singleton.mp he]; rfl⟩
          · rw [List.count_append, ht3]
            simp
          · simp only [true_iff]
            rw [sumEnc_append]
            have h0 : sumEnc [Ev.writeChunk out2] = 0 := rfl
            omega
          · intro hcontra
            exact absurd hcontra (by simp)
    · rw [if_neg hsize] at h
      have hst2 := Except.ok.inj h
      subst hst2
      refine ⟨htr0td, htr0md, ?_, ?_, ?_⟩
      · rw [htr0count, h3]
      · rw [htr0sum]
        constructor
        · intro hut
          have := h4.mp hut
          omega
        · intro hsum
          by_contra hut
          have hutf : st.useThread = false := by
            cases hb : st.useThread with
            | true => exact absurd hb hut
            | false => rfl
          have hp := (h5 hutf).1
          rw [List.length_append] at hsize
          omega
      · intro hutf
        have hp := (h5 hutf).1
        constructor
        · rw [htr0sum, List.length_append]
          omega
        · exact htr0wc (h5 hutf).2

theorem copyFromStep_err_inv (encs : List Encoder) (st : CF) (r : List PyVal)
    (m : List Char) (tr : List Ev)
    (h : copyFromStep encs st r = Except.error (m, tr)) (hinv : CFInv st) :
    (∀ e ∈ tr, isTeardown e = false) ∧ (∀ e ∈ tr, isMemDeliver e = false) := by
  obtain ⟨h1, h2, h3, h4, h5⟩ := hinv
  unfold copyFromStep at h
  cases hok : encodeRecord (encs.zip r) st.lazy with
  | error m2 =>
    rw [hok] at h
    have h2t := Except.error.inj h
    have htr : tr = st.tr := (congrArg Prod.snd h2t).symm
    subst htr
    exact ⟨h1, h2⟩
  | ok out =>
    obtain ⟨frs, lz⟩ := out
    rw [hok] at h
    dsimp only at h
    set rb := recordBytes frs with hrb
    set n := rb.length with hn
    have htr0td : ∀ e ∈ st.tr ++ [Ev.encRow n], isTeardown e = false := by
      rw [List.forall_mem_append]
      exact ⟨h1, by intro e he; rw [List.mem_singleton.mp he]; rfl⟩
    have htr0md : ∀ e ∈ st.tr ++ [Ev.encRow n], isMemDeliver e = false := by
      rw [List.forall_mem_append]
      exact ⟨h2, by intro e he; rw [List.mem_singleton.mp he]; rfl⟩
    by_cases hsize : (st.payload ++ rb).length > 65535
    · rw [if_pos hsize] at h
      by_cases hlz : lz.isEmpty = true
      · rw [if_pos hlz] at h
        exact Except.noConfusion h
      · rw [if_neg hlz] at h
        cases hwl : write_lazy (st.payload ++ rb) lz with
        | ok out2 => rw [hwl] at h; exact Except.noConfusion h
        | error m2 =>
          rw [hwl] at h
          have h2t := Except.error.inj h
          have htr : tr = if st.useThread then st.tr ++ [Ev.encRow n]
              else (st.tr ++ [Ev.encRow n]) ++ [Ev.spawnThread] :=
            (congrArg Prod.snd h2t).symm
          cases hut : st.useThread with
          | true =>
            rw [hut] at htr
            rw [if_pos rfl] at htr
            subst htr
            exact ⟨htr0td, htr0md⟩
          | false =>
            rw [hut] at htr
            rw [if_neg (by simp)] at htr
            subst htr
            constructor
            · rw [List.forall_mem_append]
              exact ⟨htr0td, by intro e he; rw [List.mem_singleton.mp he]; rfl⟩
            · rw [List.forall_mem_append]
              exact ⟨htr0md, by intro e he; rw [List.mem_singleton.mp he]; rfl⟩
    · rw [if_neg hsize] at h
      exact Except.noConfusion h

theorem foldlM_ok_inv (encs : List Encoder) :
    ∀ (rows : List (List PyVal)) (st st2 : CF),
      rows.foldlM (copyFromStep encs) st = Except.ok st2 → CFInv st → CFInv st2 := by
  intro rows
  induction rows with
  | nil =>
    intro st st2 h hinv
    have heq : st = st2 := Except.ok.inj h
    subst heq
    exact hinv
  | cons r rs ih =>
    intro st st2 h hinv
    rw [List.foldlM_cons] at h
    cases hstep : copyFromStep encs st r with
    | error e =>
      rw [hstep] at h
      exact Except.noConfusion h
    | ok stm =>
      rw [hstep] at h
      exact ih stm st2 h (copyFromStep_ok_inv encs st r stm hstep hinv)

theorem foldlM_err_inv (encs : List Encoder) :
    ∀ (rows : List (List PyVal)) (st : CF) (m : List Char) (tr : List Ev),
      rows.foldlM (copyFromStep encs) st = Except.error (m, tr) → CFInv st →
      (∀ e ∈ tr, isTeardown e = false) ∧ (∀ e ∈ tr, isMemDeliver e = false) := by
  intro rows
  induction rows with
  | nil =>
    intro st m tr h _
    exact Except.noConfusion h
  | cons r rs ih =>
    intro st m tr h hinv
    rw [List.foldlM_cons] at h
    cases hstep : copyFromStep encs st r with
    | error e =>
      rw [hstep] at h
      obtain ⟨m2, tr2⟩ := e
      have h2 := Except.error.inj h
      have hm : tr2 = tr := congrArg Prod.snd h2
      subst hm
      exact copyFromStep_err_inv encs st r m2 tr2 hstep hinv
    | ok stm =>
      rw [hstep] at h
      exact ih stm m tr h (copyFromStep_ok_inv encs st r stm hstep hinv)



theorem flatMap_replicate_single (f : α → List β) (x : α) (y : β)
    (hf : f x = [y]) : ∀ n, (List.replicate n x).flatMap f = List.replicate n y := by
  intro n
  induction n with
  | zero => rfl
  | succ m ih =>
    rw [List.replicate_succ, List.flatMap_cons, hf, ih, List.replicate_succ]
    rfl

theorem drainChunks_big (p : List Nat) (h : p.length > 65535) :
    drainChunks p = (p.take 65536 :: (drainChunks (p.drop 65536)).1,
      (drainChunks (p.drop 65536)).2) := by
  rw [drainChunks]
  rw [dif_pos h]

theorem drainChunks_small (p : List Nat) (h : ¬p.length > 65535) :
    drainChunks p = ([], p) := by
  rw [drainChunks]
  rw [dif_neg h]

theorem copyFinish_ok_cases (st : CF) (tr : List Ev)
    (h : copyFinish st = Except.ok tr) :
    (st.useThread = true ∧
      ∃ mid : List Ev,
        tr = (st.tr ++ mid) ++ [Ev.closeWrite, Ev.joinThread, Ev.closeRead] ∧
        sumEnc mid = 0 ∧ mid.count Ev.spawnThread = 0 ∧
        (∀ e ∈ mid, isTeardown e = false)) ∨
    (st.useThread = false ∧
      ∃ mid : List Ev, tr = st.tr ++ mid ∧ sumEnc mid = 0 ∧
        mid.count Ev.spawnThread = 0 ∧ (∀ e ∈ mid, isTeardown e = false) ∧
        (∀ e ∈ mid, isWriteChunk e = false)) := by
  unfold copyFinish at h
  by_cases hut : st.useThread = true
  · rw [if_pos hut] at h
    left
    refine ⟨hut, ?_⟩
    by_cases hpe : st.payload.isEmpty = true
    · rw [if_pos hpe] at h
      refine ⟨[], ?_, rfl, rfl, by intro e he; simp at he⟩
      rw [← Except.ok.inj h]
      simp
    · rw [if_neg hpe] at h
      by_cases hle : st.lazy.isEmpty = true
      · rw [if_pos hle] at h
        refine ⟨[Ev.writeChunk st.payload], ?_, rfl, by simp, ?_⟩
        · rw [← Except.ok.inj h]
          simp
        · intro e he
          rw [List.mem_singleton.mp he]
          rfl
      · rw [if_neg hle] at h
        cases hwl : write_lazy st.payload st.lazy with
        | error m => rw [hwl] at h; exact Except.noConfusion h
        | ok out =>
          rw [hwl] at h
          refine ⟨[Ev.writeChunk out], ?_, rfl, by simp, ?_⟩
          · rw [← Except.ok.inj h]
            simp
          · intro e he
            rw [List.mem_singleton.mp he]
            rfl
  · rw [if_neg hut] at h
    right
    have hutf : st.useThread = false := by
      cases hb : st.useThread with
      | false => rfl
      | true => exact absurd hb hut
    refine ⟨hutf, ?_⟩
    by_cases hpe : st.payload.isEmpty = true
    · rw [if_pos hpe] at h
      refine ⟨[], ?_, rfl, rfl, by intro e he; simp at he, by intro e he; simp at he⟩
      rw [← Except.ok.inj h]
      simp
    · rw [if_neg hpe] at h
      by_cases hle : st.lazy.isEmpty = true
      · rw [if_pos hle] at h
        refine ⟨[Ev.memDeliver st.payload], ?_, rfl, by simp, ?_, ?_⟩
        · rw [← Except.ok.inj h]
        · intro e he
          rw [List.mem_singleton.mp he]
          rfl
        · intro e he
          rw [List.mem_singleton.mp he]
          rfl
      · rw [if_neg hle] at h
        cases hwl : write_lazy st.payload st.lazy with
        | error m => rw [hwl] at h; exact Except.noConfusion h
        | ok out =>
          rw [hwl] at h
          refine ⟨[Ev.memDeliver out], ?_, rfl, by simp, ?_, ?_⟩
          · rw [← Except.ok.inj h]
          · intro e he
            rw [List.mem_singleton.mp he]
            rfl
          · intro e he
            rw [List.mem_singleton.mp he]
            rfl

theorem copyFinish_err (st : CF) (m : List Char) (tr : List Ev)
    (h : copyFinish st = Except.error (m, tr)) : tr = st.tr := by
  unfold copyFinish at h
  by_cases hut : st.useThread = true
  · rw [if_pos hut] at h
    by_cases hpe : st.payload.isEmpty = true
    · rw [if_pos hpe] at h
      exact Except.noConfusion h
    · rw [if_neg hpe] at h
      by_cases hle : st.lazy.isEmpty = true
      · rw [if_pos hle] at h
        exact Except.noConfusion h
      · rw [if_neg hle] at h
        cases hwl : write_lazy st.payload st.lazy with
        | ok out => rw [hwl] at h; exact Except.noConfusion h
        | error m2 =>
          rw [hwl] at h
          exact (congrArg Prod.snd (Except.error.inj h)).symm
  · rw [if_neg hut] at h
    by_cases hpe : st.payload.isEmpty = true
    · rw [if_pos hpe] at h
      exact Except.noConfusion h
    · rw [if_neg hpe] at h
      by_cases hle : st.lazy.isEmpty = true
      · rw [if_pos hle] at h
        exact Except.noConfusion h
      · rw [if_neg hle] at h
        cases hwl : write_lazy st.payload st.lazy with
        | ok out => rw [hwl] at h; exact Except.noConfusion h
        | error m2 =>
          rw [hwl] at h
          exact (congrArg Prod.snd (Except.error.inj h)).symm


end copy


/-- C7: `text_escape` replaces backslash first and then each of backspace,
form feed, newline, carriage return, tab and vertical tab by its
two-character backslash escape; the result contains none of those raw (no
raw control character, and every backslash opens a two-character escape),
and unescaping the result by the inverse grammar recovers the input
exactly. -/
theorem claim_C7 (s : List Char) :
    (∀ c ∈ copy.text_escape s, c ∉ copy.ctrlChars) ∧
    copy.escOk (copy.text_escape s) = true ∧
    copy.unescape (copy.text_escape s) = s := by
  refine ⟨?_, ?_, ?_⟩
  · intro c hc
    rw [copy.text_escape_eq_flatMap] at hc
    rcases List.mem_flatMap.mp hc with ⟨a, _, hca⟩
    exact copy.mem_escChar_not_ctrl a c hca
  · rw [copy.text_escape_eq_flatMap]
    exact copy.escOk_flatMap_escChar s
  · rw [copy.text_escape_eq_flatMap]
    exact copy.unescape_flatMap_escChar s

/-- Witness for C7 at a concrete string containing a backslash, a newline
and a tab. -/
theorem claim_C7_witness :
    copy.unescape (copy.text_escape [copy.BS, 'n', copy.NL, copy.TAB, 'a']) =
      [copy.BS, 'n', copy.NL, copy.TAB, 'a'] :=
  (claim_C7 [copy.BS, 'n', copy.NL, copy.TAB, 'a']).2.2

/-- C10: because Python `bool` is a subclass of `int`, the strict `Int`
encoder (and `IntOrNone`, `Float`, `FloatOrNone`) accepts True and False
and passes them through (they then render as the f-string `True`/`False`),
while the strict `Boolean` encoder rejects plain ints; so a bool value on an
integer field slips past the declared strict type check. -/
theorem claim_C10 :
    copy.Int (copy.PyVal.bool true) [] = Except.ok (copy.WireVal.bool true, []) ∧
    copy.Int (copy.PyVal.bool false) [] = Except.ok (copy.WireVal.bool false, []) ∧
    copy.IntOrNone (copy.PyVal.bool true) [] = Except.ok (copy.WireVal.bool true, []) ∧
    copy.Float (copy.PyVal.bool true) [] = Except.ok (copy.WireVal.bool true, []) ∧
    copy.FloatOrNone (copy.PyVal.bool false) [] =
      Except.ok (copy.WireVal.bool false, []) ∧
    copy.fstring (copy.WireVal.bool true) = ("True").data ∧
    copy.Boolean (copy.PyVal.int 1) [] = Except.error (("expected type bool").data) ∧
    copy.Boolean (copy.PyVal.int 0) [] = Except.error (("expected type bool").data) ∧
    copy.Int (copy.PyVal.str ['a']) [] = Except.error (("expected type int").data) :=
  ⟨rfl, rfl, rfl, rfl, rfl, rfl, rfl, rfl, rfl⟩

/-- C1: for a bytes or memoryview value longer than 4096 bytes, `Binary`
and `BinaryOrNone` emit `\\x` plus the placeholder and append the raw bytes
as a lazy entry; substituting that placeholder via `write_lazy` (which
streams the entry through `_lazy_binary`) yields a byte stream identical to
the inline path `\\x + v.hex()`, in any NUL-free surrounding context.  For
length at most 4096 the inline hex form is emitted directly. -/
theorem claim_C1 (bs : List Nat) (lazy : List copy.LazyEntry)
    (hb : ∀ b ∈ bs, b < 256) :
    (4096 < bs.length →
      copy.Binary (copy.PyVal.bytes bs) lazy =
        Except.ok (copy.WireVal.txt ([copy.BS, copy.BS, 'x'] ++ copy.LAZY_PLACEHOLDER),
          lazy ++ [bs]) ∧
      copy.Binary (copy.PyVal.memview bs) lazy =
        Except.ok (copy.WireVal.txt ([copy.BS, copy.BS, 'x'] ++ copy.LAZY_PLACEHOLDER),
          lazy ++ [bs]) ∧
      copy.BinaryOrNone (copy.PyVal.bytes bs) lazy =
        Except.ok (copy.WireVal.txt ([copy.BS, copy.BS, 'x'] ++ copy.LAZY_PLACEHOLDER),
          lazy ++ [bs]) ∧
      (∀ pre post : List Nat, (0 : Nat) ∉ pre →
        copy.write_lazy
            (pre ++ copy.encodeStr ([copy.BS, copy.BS, 'x'] ++ copy.LAZY_PLACEHOLDER) ++ post)
            [bs] =
          Except.ok
            (pre ++ copy.encodeStr ([copy.BS, copy.BS, 'x'] ++ copy.pyHex bs) ++ post))) ∧
    (bs.length ≤ 4096 →
      copy.Binary (copy.PyVal.bytes bs) lazy =
        Except.ok (copy.WireVal.txt ([copy.BS, copy.BS, 'x'] ++ copy.pyHex bs), lazy) ∧
      copy.Binary (copy.PyVal.memview bs) lazy =
        Except.ok (copy.WireVal.txt ([copy.BS, copy.BS, 'x'] ++ copy.pyHex bs), lazy) ∧
      copy.BinaryOrNone (copy.PyVal.bytes bs) lazy =
        Except.ok (copy.WireVal.txt ([copy.BS, copy.BS, 'x'] ++ copy.pyHex bs), lazy)) := by
  constructor
  · intro hlen
    refine ⟨?_, ?_, ?_, ?_⟩
    · simp only [copy.Binary, copy.bytesOf]
      rw [if_pos hlen]
    · simp only [copy.Binary, copy.bytesOf]
      rw [if_pos hlen]
    · simp only [copy.BinaryOrNone, copy.bytesOf]
      rw [if_pos hlen]
    · intro pre post hpre
      have hps : copy.encodeStr ([copy.BS, copy.BS, 'x'] ++ copy.LAZY_PLACEHOLDER) =
          [92, 92, 120, 0] := by decide
      have hinl : copy.encodeStr ([copy.BS, copy.BS, 'x'] ++ copy.pyHex bs) =
          [92, 92, 120] ++ copy.b2a_hex bs := by
        rw [copy.encodeStr_append, copy.encodeStr_pyHex bs hb]
        rfl
      rw [hps, hinl]
      have hshape : pre ++ [92, 92, 120, 0] ++ post =
          (pre ++ [92, 92, 120]) ++ 0 :: post := by
        simp
      rw [hshape]
      have hpre2 : (0 : Nat) ∉ pre ++ [92, 92, 120] := by
        intro hm
        rcases List.mem_append.mp hm with hm1 | hm1
        · exact hpre hm1
        · simp at hm1
      rw [copy.write_lazy, copy.findPlaceholder_append _ _ hpre2]
      show Except.map _ (copy.write_lazy post []) = _
      rw [copy.write_lazy]
      simp only [Except.map, copy.lazy_binary_eq_b2a_hex]
      simp [List.append_assoc]
  · intro hlen
    have hnot : ¬(4096 < bs.length) := by omega
    refine ⟨?_, ?_, ?_⟩
    · simp only [copy.Binary, copy.bytesOf]
      rw [if_neg hnot]
    · simp only [copy.Binary, copy.bytesOf]
      rw [if_neg hnot]
    · simp only [copy.BinaryOrNone, copy.bytesOf]
      rw [if_neg hnot]

/-- Witness for C1: a 4097-byte value is deferred with a placeholder, and
its substituted stream is byte-identical to the inline hex stream. -/
theorem claim_C1_witness :
    copy.Binary (copy.PyVal.bytes (List.replicate 4097 0)) [] =
      Except.ok (copy.WireVal.txt ([copy.BS, copy.BS, 'x'] ++ copy.LAZY_PLACEHOLDER),
        [] ++ [List.replicate 4097 0]) ∧
    copy.write_lazy
        ([] ++ copy.encodeStr ([copy.BS, copy.BS, 'x'] ++ copy.LAZY_PLACEHOLDER) ++ [])
        [List.replicate 4097 0] =
      Except.ok
        ([] ++ copy.encodeStr ([copy.BS, copy.BS, 'x'] ++
          copy.pyHex (List.replicate 4097 0)) ++ []) := by
  have h := claim_C1 (List.replicate 4097 0) []
    (by
      intro b hbm
      rw [List.eq_of_mem_replicate hbm]
      omega)
  have h1 := h.1 (by simp only [List.length_replicate]; omega)
  exact ⟨h1.1, h1.2.2.2 [] [] (by simp)⟩

/-- C3 counterexample: the placeholder byte can occur in the row buffer
other than as an emitted placeholder.  A text value containing the NUL
character passes through `text_escape` unchanged, so the buffer built from
the single record `[str NUL]` contains one 0x00 byte while no lazy entry
was appended - refuting the claimed bijection between placeholder bytes
and lazy entries. -/
theorem claim_C3_counterexample :
    copy.buildBuffer [copy.Text] [[copy.PyVal.str [copy.NULC]]] [] =
      Except.ok (([0, 10] : List Nat), ([] : List copy.LazyEntry)) ∧
    ([0, 10] : List Nat).count 0 = 1 ∧
    ¬(([0, 10] : List Nat).count 0 = ([] : List copy.LazyEntry).length) := by
  refine ⟨rfl, by decide, by decide⟩

/-- C3 as amended: restricted to records whose textual parts are NUL-free
(the encoders neither escape nor reject NUL, so this is the condition under
which the code comment `not allowed in postgres data` actually applies),
the row buffer contains exactly one placeholder byte per lazy entry, the
Nth placeholder corresponding to the Nth entry, and `write_lazy`
substitutes them unambiguously, copying all other bytes verbatim (its
output is the weave of the placeholder-split segments with the entries'
hex streams). -/
theorem claim_C3 (encs : List copy.Encoder) (rows : List (List copy.PyVal))
    (payload : List Nat) (lazy : List copy.LazyEntry)
    (hinv : ∀ e ∈ encs, copy.EncoderZeroInv e)
    (hnf : ∀ r ∈ rows, ∀ v ∈ r, copy.nulFreeVal v = true)
    (hbb : copy.buildBuffer encs rows [] = Except.ok (payload, lazy)) :
    payload.count 0 = lazy.length ∧
    copy.write_lazy payload lazy =
      Except.ok (copy.weave (copy.splitZ payload) lazy) := by
  obtain ⟨news, hl, hc⟩ :=
    copy.buildBuffer_zeroInv encs hinv rows [] payload lazy hnf hbb
  have hlen : payload.count 0 = lazy.length := by
    rw [hc, hl]
    simp
  exact ⟨hlen, copy.write_lazy_weave lazy payload hlen⟩

/-- Witness for C3 on a record carrying one deferred binary value and one
text value. -/
theorem claim_C3_witness :
    ([92, 92, 120, 0, 9, 97, 10] : List Nat).count 0 =
      [List.replicate 4097 (1 : Nat)].length ∧
    copy.write_lazy [92, 92, 120, 0, 9, 97, 10] [List.replicate 4097 1] =
      Except.ok (copy.weave (copy.splitZ [92, 92, 120, 0, 9, 97, 10])
        [List.replicate 4097 1]) := by
  have hlen : 4096 < (List.replicate 4097 (1 : Nat)).length := by
    simp only [List.length_replicate]
    omega
  have h1 : copy.Binary (copy.PyVal.bytes (List.replicate 4097 1)) [] =
      Except.ok (copy.WireVal.txt ([copy.BS, copy.BS, 'x'] ++ copy.LAZY_PLACEHOLDER),
        [List.replicate 4097 1]) := by
    simp only [copy.Binary, copy.bytesOf]
    rw [if_pos hlen]
    rfl
  have h2 : copy.Text (copy.PyVal.str ['a']) [List.replicate 4097 1] =
      Except.ok (copy.WireVal.txt ['a'], [List.replicate 4097 1]) := rfl
  have h3 : copy.encodeRecord
      ([copy.Binary, copy.Text].zip
        [copy.PyVal.bytes (List.replicate 4097 1), copy.PyVal.str ['a']]) [] =
      Except.ok ([[copy.BS, copy.BS, 'x', copy.NULC], ['a']],
        [List.replicate 4097 1]) := by
    show copy.encodeRecord
      [(copy.Binary, copy.PyVal.bytes (List.replicate 4097 1)),
       (copy.Text, copy.PyVal.str ['a'])] [] = _
    simp only [copy.encodeRecord]
    rw [h1]
    dsimp only
    rw [h2]
    rfl
  have h4 : copy.buildBuffer [copy.Binary, copy.Text]
      [[copy.PyVal.bytes (List.replicate 4097 1), copy.PyVal.str ['a']]] [] =
      Except.ok (([92, 92, 120, 0, 9, 97, 10] : List Nat),
        [List.replicate 4097 (1 : Nat)]) := by
    simp only [copy.buildBuffer]
    rw [h3]
    rfl
  exact claim_C3 [copy.Binary, copy.Text]
    [[copy.PyVal.bytes (List.replicate 4097 1), copy.PyVal.str ['a']]]
    [92, 92, 120, 0, 9, 97, 10] [List.replicate 4097 1]
    (by
      intro e he
      rcases List.mem_cons.mp he with rfl | he2
      · exact copy.zeroInv_Binary
      rcases List.mem_cons.mp he2 with rfl | he3
      · exact copy.zeroInv_Text
      · simp at he3)
    (by
      intro r hr v hv
      have hr2 : r = [copy.PyVal.bytes (List.replicate 4097 1), copy.PyVal.str ['a']] :=
        List.mem_singleton.mp hr
      subst hr2
      rcases List.mem_cons.mp hv with rfl | hv2
      · rfl
      rcases List.mem_cons.mp hv2 with rfl | hv3
      · decide
      · simp at hv3)
    h4

/-- C6: the HStore encoder renders each pair of a well-typed dict (str
keys, str-or-None values) as the double-quoted nested-escaped key, `=>`,
and either the double-quoted nested-escaped value or the unquoted bareword
NULL for a None value (never the scalar token `\N`), pairs comma-joined;
a non-str key, or a value neither str nor None, raises a TypeError; and
the map with key `k` and value `v"q` encodes with the inner double quote
escaped exactly once. -/
theorem claim_C6 :
    (∀ (pairs : List (copy.PyVal × copy.PyVal)) (lazy : List copy.LazyEntry),
      (∀ p ∈ pairs, copy.hstoreWellTyped p) →
      copy.HStore (copy.PyVal.dict pairs) lazy =
        Except.ok (copy.WireVal.txt (copy.joinSep ','
          (pairs.map fun p =>
            match p with
            | (copy.PyVal.str ks, copy.PyVal.none) =>
                copy.quote (copy.text_escape_nested ks) ++ ['=', '>'] ++ copy.SQL_NULL
            | (copy.PyVal.str ks, copy.PyVal.str vs) =>
                copy.quote (copy.text_escape_nested ks) ++ ['=', '>'] ++
                  copy.quote (copy.text_escape_nested vs)
            | _ => [])), lazy)) ∧
    (∀ (pre : List (copy.PyVal × copy.PyVal)) (k v : copy.PyVal)
        (rest : List (copy.PyVal × copy.PyVal)) (lazy : List copy.LazyEntry),
      (∀ p ∈ pre, copy.hstoreWellTyped p) → (∀ ks, k ≠ copy.PyVal.str ks) →
      copy.HStore (copy.PyVal.dict (pre ++ (k, v) :: rest)) lazy =
        Except.error (("expected type str for keys").data)) ∧
    (∀ (pre : List (copy.PyVal × copy.PyVal)) (ks : List Char) (v : copy.PyVal)
        (rest : List (copy.PyVal × copy.PyVal)) (lazy : List copy.LazyEntry),
      (∀ p ∈ pre, copy.hstoreWellTyped p) → v ≠ copy.PyVal.none →
      (∀ vs, v ≠ copy.PyVal.str vs) →
      copy.HStore (copy.PyVal.dict (pre ++ (copy.PyVal.str ks, v) :: rest)) lazy =
        Except.error (("expected type str or None for values").data)) ∧
    (∀ lazy : List copy.LazyEntry,
      copy.HStore (copy.PyVal.int 3) lazy = Except.error (("expected type dict").data)) ∧
    copy.SQL_NULL ≠ copy.NULL ∧
    copy.HStore (copy.PyVal.dict
        [(copy.PyVal.str ['k'], copy.PyVal.str ['v', '"', 'q'])]) [] =
      Except.ok (copy.WireVal.txt
        ['"', 'k', '"', '=', '>', '"', 'v', copy.BS, copy.BS, '"', 'q', '"'], []) := by
  refine ⟨?_, ?_, ?_, ?_, by decide, by rfl⟩
  · intro pairs lazy hwt
    simp only [copy.HStore, copy.hstoreParts_wellTyped pairs hwt, Except.map]
  · intro pre k v rest lazy hwt hk
    simp only [copy.HStore, copy.hstoreParts_badKey pre k v rest hwt hk, Except.map]
  · intro pre ks v rest lazy hwt hvn hvs
    simp only [copy.HStore, copy.hstoreParts_badValue pre ks v rest hwt hvn hvs,
      Except.map]
  · intro lazy
    rfl

/-- Witness for C6: a single well-typed pair with a None value renders as
the quoted key, the arrow, and the bareword NULL token. -/
theorem claim_C6_witness :
    copy.HStore (copy.PyVal.dict [(copy.PyVal.str ['k'], copy.PyVal.none)]) [] =
      Except.ok (copy.WireVal.txt (copy.joinSep ','
        ([(copy.PyVal.str ['k'], copy.PyVal.none)].map fun p =>
          match p with
          | (copy.PyVal.str ks, copy.PyVal.none) =>
              copy.quote (copy.text_escape_nested ks) ++ ['=', '>'] ++ copy.SQL_NULL
          | (copy.PyVal.str ks, copy.PyVal.str vs) =>
              copy.quote (copy.text_escape_nested ks) ++ ['=', '>'] ++
                copy.quote (copy.text_escape_nested vs)
          | _ => [])), []) :=
  claim_C6.1 [(copy.PyVal.str ['k'], copy.PyVal.none)] []
    (by
      intro p hp
      have hp2 : p = (copy.PyVal.str ['k'], copy.PyVal.none) := List.mem_singleton.mp hp
      subst hp2
      exact ⟨⟨['k'], rfl⟩, Or.inl rfl⟩)

/-- C4: whenever `copy_from` spawns the helper thread and completes, the
teardown is exactly the three steps close-write-end, join-thread,
close-read-end, in that order, at the very end of the trace (no teardown
event occurs anywhere else); and on an aborted run (an exception) no
teardown event occurs at all, so the read end is never closed before the
helper thread has finished. -/
theorem claim_C4 :
    (∀ (encs : List copy.Encoder) (rows : List (List copy.PyVal)) (tr : List copy.Ev),
      copy.copy_from encs rows = Except.ok tr →
      copy.Ev.spawnThread ∈ tr →
      ∃ pre, tr = pre ++ [copy.Ev.closeWrite, copy.Ev.joinThread, copy.Ev.closeRead] ∧
        ∀ e ∈ pre, copy.isTeardown e = false) ∧
    (∀ (encs : List copy.Encoder) (rows : List (List copy.PyVal))
        (m : List Char) (tr : List copy.Ev),
      copy.copy_from encs rows = Except.error (m, tr) →
      ∀ e ∈ tr, copy.isTeardown e = false) := by
  constructor
  · intro encs rows tr h hspawn
    unfold copy.copy_from at h
    cases hfold : rows.foldlM (copy.copyFromStep encs) ⟨false, [], [], []⟩ with
    | error e =>
      rw [hfold] at h
      exact Except.noConfusion h
    | ok st =>
      rw [hfold] at h
      obtain ⟨h1, h2, h3, h4, h5⟩ :=
        copy.foldlM_ok_inv encs rows _ st hfold copy.CFInv_init
      rcases copy.copyFinish_ok_cases st tr h with
        ⟨hut, mid, htr, _, _, hmidtd⟩ | ⟨hutf, mid, htr, _, hmidcnt, _, _⟩
      · refine ⟨st.tr ++ mid, htr, ?_⟩
        rw [List.forall_mem_append]
        exact ⟨h1, hmidtd⟩
      · exfalso
        rw [htr] at hspawn
        have hcnt : (st.tr ++ mid).count copy.Ev.spawnThread = 0 := by
          rw [List.count_append, hmidcnt, h3, hutf]
          rfl
        have := List.count_pos_iff.mpr hspawn
        omega
  · intro encs rows m tr h
    unfold copy.copy_from at h
    cases hfold : rows.foldlM (copy.copyFromStep encs) ⟨false, [], [], []⟩ with
    | error e =>
      rw [hfold] at h
      obtain ⟨m2, tr2⟩ := e
      have h2 := Except.error.inj h
      have htr : tr2 = tr := congrArg Prod.snd h2
      subst htr
      exact (copy.foldlM_err_inv encs rows _ m2 tr2 hfold copy.CFInv_init).1
    | ok st =>
      rw [hfold] at h
      have hinv := copy.foldlM_ok_inv encs rows _ st hfold copy.CFInv_init
      have htr := copy.copyFinish_err st m tr h
      subst htr
      exact hinv.1

/-- C5: the size check runs after each record; the helper thread is spawned
exactly when the accumulated encoded payload (the sum of the per-record
byte counts in the trace) exceeds 65535 bytes after some record, and then
exactly once; a batch that never exceeds 65535 bytes spawns no thread and
writes no pipe chunk (its delivery is the single in-memory payload). -/
theorem claim_C5 (encs : List copy.Encoder) (rows : List (List copy.PyVal))
    (tr : List copy.Ev) (h : copy.copy_from encs rows = Except.ok tr) :
    tr.count copy.Ev.spawnThread = (if 65535 < copy.sumEnc tr then 1 else 0) ∧
    (copy.sumEnc tr ≤ 65535 →
      (∀ e ∈ tr, copy.isWriteChunk e = false) ∧ copy.Ev.spawnThread ∉ tr) := by
  unfold copy.copy_from at h
  cases hfold : rows.foldlM (copy.copyFromStep encs) ⟨false, [], [], []⟩ with
  | error e =>
    rw [hfold] at h
    exact Except.noConfusion h
  | ok st =>
    rw [hfold] at h
    obtain ⟨h1, h2, h3, h4, h5⟩ :=
      copy.foldlM_ok_inv encs rows _ st hfold copy.CFInv_init
    rcases copy.copyFinish_ok_cases st tr h with
      ⟨hut, mid, htr, hmidsum, hmidcnt, _⟩ | ⟨hutf, mid, htr, hmidsum, hmidcnt, _, hmidwc⟩
    · have hsum : copy.sumEnc tr = copy.sumEnc st.tr := by
        rw [htr, copy.sumEnc_append, copy.sumEnc_append, hmidsum]
        have h0 : copy.sumEnc [copy.Ev.closeWrite, copy.Ev.joinThread, copy.Ev.closeRead] = 0 := rfl
        rw [h0]
        omega
      have hcnt : tr.count copy.Ev.spawnThread = 1 := by
        rw [htr, List.count_append, List.count_append, hmidcnt, h3, hut]
        simp
      have hbig : 65535 < copy.sumEnc tr := by
        rw [hsum]
        exact h4.mp hut
      constructor
      · rw [hcnt, if_pos hbig]
      · intro hle
        exact absurd hbig (by omega)
    · have hsum : copy.sumEnc tr = copy.sumEnc st.tr := by
        rw [htr, copy.sumEnc_append, hmidsum]
        omega
      have hnotbig : ¬65535 < copy.sumEnc st.tr := by
        intro hp
        rw [h4.mpr hp] at hutf
        exact Bool.noConfusion hutf
      have hcnt : tr.count copy.Ev.spawnThread = 0 := by
        rw [htr, List.count_append, hmidcnt, h3, hutf]
        rfl
      constructor
      · rw [hcnt, hsum, if_neg hnotbig]
      · intro _
        constructor
        · rw [htr]
          rw [List.forall_mem_append]
          exact ⟨(h5 hutf).2, hmidwc⟩
        · intro hmem
          have := List.count_pos_iff.mpr hmem
          omega

/-- Witness for C5 on a small batch: one record of two encoded bytes, no
thread, delivered as a single in-memory payload. -/
theorem claim_C5_witness :
    ([copy.Ev.encRow 2, copy.Ev.memDeliver [53, 10]].count copy.Ev.spawnThread =
      if 65535 < copy.sumEnc [copy.Ev.encRow 2, copy.Ev.memDeliver [53, 10]]
      then 1 else 0) ∧
    (copy.sumEnc [copy.Ev.encRow 2, copy.Ev.memDeliver [53, 10]] ≤ 65535 →
      (∀ e ∈ [copy.Ev.encRow 2, copy.Ev.memDeliver [53, 10]],
        copy.isWriteChunk e = false) ∧
      copy.Ev.spawnThread ∉ [copy.Ev.encRow 2, copy.Ev.memDeliver [53, 10]]) :=
  claim_C5 [copy.Int] [[copy.PyVal.int 5]]
    [copy.Ev.encRow 2, copy.Ev.memDeliver [53, 10]] rfl


theorem copyFromStep_spawn (encs : List copy.Encoder) (st : copy.CF)
    (record : List copy.PyVal) (frs : List (List Char))
    (hrec : copy.encodeRecord (encs.zip record) st.lazy = Except.ok (frs, []))
    (hbig : (st.payload ++ copy.recordBytes frs).length > 65535)
    (hut : st.useThread = false) :
    copy.copyFromStep encs st record = Except.ok ⟨true,
      (copy.drainChunks (st.payload ++ copy.recordBytes frs)).2, [],
      st.tr ++ [copy.Ev.encRow (copy.recordBytes frs).length] ++
        [copy.Ev.spawnThread] ++
        (copy.drainChunks (st.payload ++ copy.recordBytes frs)).1.map
          copy.Ev.writeChunk⟩ := by
  unfold copy.copyFromStep
  rw [hrec]
  dsimp only
  rw [if_pos hbig, hut]
  rw [if_neg (show ¬(false = true) from Bool.false_ne_true)]
  rfl


theorem bsEsc : copy.text_escape (List.replicate 65535 'a') = List.replicate 65535 'a' := by
  rw [copy.text_escape_eq_flatMap]
  exact copy.flatMap_replicate_single _ _ _ (by decide) 65535

theorem bsEnc : copy.encodeStr (List.replicate 65535 'a') = List.replicate 65535 97 :=
  copy.flatMap_replicate_single _ _ _ (by decide) 65535

theorem bsText : copy.Text (copy.PyVal.str (List.replicate 65535 'a')) [] =
    Except.ok (copy.WireVal.txt (List.replicate 65535 'a'), []) := by
  simp only [copy.Text, bsEsc]

theorem bsRec : copy.encodeRecord
    ([copy.Text].zip [copy.PyVal.str (List.replicate 65535 'a')]) [] =
    Except.ok ([List.replicate 65535 'a'], []) := by
  show copy.encodeRecord [(copy.Text, copy.PyVal.str (List.replicate 65535 'a'))] [] = _
  simp only [copy.encodeRecord]
  rw [bsText]
  rfl

theorem bsRb : copy.recordBytes [List.replicate 65535 'a'] =
    List.replicate 65535 97 ++ [10] := by
  unfold copy.recordBytes
  rw [show copy.joinSep copy.TAB [List.replicate 65535 'a'] =
    List.replicate 65535 'a' from rfl, bsEnc]

theorem bsLen : (List.replicate 65535 (97 : Nat) ++ [10]).length = 65536 := by
  rw [List.length_append, List.length_replicate]
  rfl

theorem bsTake : List.take 65536 (List.replicate 65535 (97 : Nat) ++ [10]) =
    List.replicate 65535 97 ++ [10] := by
  rw [List.take_append_eq_append_take, List.take_replicate, List.length_replicate]
  have h1 : min 65536 65535 = 65535 := by norm_num
  have h2 : 65536 - 65535 = 1 := by norm_num
  rw [h1, h2]
  rfl

theorem bsDrop : List.drop 65536 (List.replicate 65535 (97 : Nat) ++ [10]) = [] := by
  rw [List.drop_append_eq_append_drop, List.drop_replicate, List.length_replicate]
  have h1 : 65536 - 65535 = 1 := by norm_num
  rw [h1]
  have h3 : (65535 : Nat) - 65536 = 0 := by norm_num
  rw [h3]
  rfl

theorem bsDrain : copy.drainChunks (List.replicate 65535 97 ++ [10]) =
    ([List.replicate 65535 97 ++ [10]], []) := by
  rw [copy.drainChunks_big _ (by rw [bsLen]; omega)]
  rw [bsTake, bsDrop, copy.drainChunks_small [] (by simp)]

theorem bsBig : (((⟨false, [], [], []⟩ : copy.CF)).payload ++
    copy.recordBytes [List.replicate 65535 'a']).length > 65535 := by
  show ([] ++ copy.recordBytes [List.replicate 65535 'a']).length > 65535
  rw [List.nil_append, bsRb, bsLen]
  omega

theorem bsStep : copy.copyFromStep [copy.Text] ⟨false, [], [], []⟩
    [copy.PyVal.str (List.replicate 65535 'a')] =
    Except.ok ⟨true, [], [], [copy.Ev.encRow 65536, copy.Ev.spawnThread,
      copy.Ev.writeChunk (List.replicate 65535 97 ++ [10])]⟩ := by
  rw [copyFromStep_spawn [copy.Text] ⟨false, [], [], []⟩
    [copy.PyVal.str (List.replicate 65535 'a')] [List.replicate 65535 'a']
    bsRec bsBig rfl]
  dsimp only
  simp only [List.nil_append, bsRb, bsDrain, bsLen, List.map_cons, List.map_nil]
  rfl

theorem bsFold : [[copy.PyVal.str (List.replicate 65535 'a')]].foldlM
    (copy.copyFromStep [copy.Text]) ⟨false, [], [], []⟩ =
    Except.ok (⟨true, [], [], [copy.Ev.encRow 65536, copy.Ev.spawnThread,
      copy.Ev.writeChunk (List.replicate 65535 97 ++ [10])]⟩ : copy.CF) := by
  rw [List.foldlM_cons, bsStep]
  rfl

theorem bsFinish : ∀ ch : List Nat, copy.copyFinish ⟨true, [], [],
    [copy.Ev.encRow 65536, copy.Ev.spawnThread, copy.Ev.writeChunk ch]⟩ =
    Except.ok [copy.Ev.encRow 65536, copy.Ev.spawnThread, copy.Ev.writeChunk ch,
      copy.Ev.closeWrite, copy.Ev.joinThread, copy.Ev.closeRead] :=
  fun _ => rfl

theorem copy_from_singleton (encs : List copy.Encoder) (row : List copy.PyVal)
    (st : copy.CF)
    (hstep : copy.copyFromStep encs ⟨false, [], [], []⟩ row = Except.ok st) :
    copy.copy_from encs [row] = copy.copyFinish st := by
  unfold copy.copy_from
  rw [List.foldlM_cons, hstep]
  rfl

theorem bsRun : copy.copy_from [copy.Text] [[copy.PyVal.str (List.replicate 65535 'a')]] =
    copy.copyFinish (⟨true, [], [], [copy.Ev.encRow 65536, copy.Ev.spawnThread,
      copy.Ev.writeChunk (List.replicate 65535 97 ++ [10])]⟩ : copy.CF) :=
  copy_from_singleton [copy.Text] [copy.PyVal.str (List.replicate 65535 'a')] _ bsStep

theorem bigSpawnTrace :
    copy.copy_from [copy.Text] [[copy.PyVal.str (List.replicate 65535 'a')]] =
      Except.ok [copy.Ev.encRow 65536, copy.Ev.spawnThread,
        copy.Ev.writeChunk (List.replicate 65535 97 ++ [10]),
        copy.Ev.closeWrite, copy.Ev.joinThread, copy.Ev.closeRead] :=
  bsRun.trans (bsFinish (List.replicate 65535 97 ++ [10]))

/-- Witness for C4: a single record of 65536 encoded bytes spawns the
helper thread, and the run ends with the strict teardown triple. -/
theorem claim_C4_witness :
    ∃ pre, [copy.Ev.encRow 65536, copy.Ev.spawnThread,
        copy.Ev.writeChunk (List.replicate 65535 97 ++ [10]),
        copy.Ev.closeWrite, copy.Ev.joinThread, copy.Ev.closeRead] =
      pre ++ [copy.Ev.closeWrite, copy.Ev.joinThread, copy.Ev.closeRead] ∧
      ∀ e ∈ pre, copy.isTeardown e = false :=
  claim_C4.1 [copy.Text] [[copy.PyVal.str (List.replicate 65535 'a')]] _
    bigSpawnTrace
    (List.mem_cons_of_mem _ (List.mem_cons_self _ _))

/-- C2: the claim says a caller-supplied `field_encoders` entry keyed by a
resolved field attname replaces that field encoder and `copy_update` then
completes normally.  In the code `encs` is one component of the tuple of
tuples built by `zip(*)`, so the item assignment `encs[attnames.index(fname)]
= encoder` raises TypeError: whenever encoder resolution succeeds and some
override key matches a resolved attname, `copy_update` fails with the tuple
assignment error before any record is encoded, so the override can never
take effect.  The second conjunct exhibits a concrete well-typed run. -/
theorem claim_C2 :
    (∀ (reg : List (copy.FieldKlass × (copy.Encoder × copy.Encoder)))
      (pk : copy.Field) (fields : List copy.Field)
      (fe : List (List Char × copy.Encoder)) (objs : List (List copy.PyVal))
      (encs : List copy.Encoder),
      (pk :: fields).mapM (copy.get_encoder reg) = Except.ok encs →
      fe.any (fun p => ((pk :: fields).map copy.attname).contains p.1) = true →
      copy.copy_update reg pk fields fe objs = Except.error (copy.tupleSetErr, [])) ∧
    copy.copy_update copy.ENCODERS
      (copy.Field.plain [.AutoField, .FieldBase] false (("id").data))
      [copy.Field.plain [.IntegerField, .FieldBase] false (("x").data)]
      [((("x").data), copy.Int)]
      [[copy.PyVal.int 1, copy.PyVal.int 2]] =
      Except.error (copy.tupleSetErr, []) := by
  constructor
  · intro reg pk fields fe objs encs hres hany
    have hafe : copy.applyFieldEncoders ((pk :: fields).map copy.attname) encs fe =
        Except.error copy.tupleSetErr := by
      unfold copy.applyFieldEncoders
      rw [if_pos hany]
    unfold copy.copy_update
    dsimp only
    rw [hres]
    dsimp only
    rw [hafe]
  · rfl

/-- Witness for C2: the general branch applied at the concrete registry,
fields and override map of the second conjunct. -/
theorem claim_C2_witness :
    copy.copy_update copy.ENCODERS
      (copy.Field.plain [.AutoField, .FieldBase] false (("id").data))
      [copy.Field.plain [.IntegerField, .FieldBase] false (("x").data)]
      [((("x").data), copy.Int)]
      [[copy.PyVal.int 5, copy.PyVal.int 6]] =
      Except.error (copy.tupleSetErr, []) :=
  claim_C2.1 copy.ENCODERS
    (copy.Field.plain [.AutoField, .FieldBase] false (("id").data))
    [copy.Field.plain [.IntegerField, .FieldBase] false (("x").data)]
    [((("x").data), copy.Int)]
    [[copy.PyVal.int 5, copy.PyVal.int 6]]
    [copy.Int, copy.Int] (by rfl) (by rfl)

/-- C8: `get_encoder` resolves a relation field transitively through its
target; on a plain field it walks the ancestry most-derived first, the
first registered class wins, and `enc[field.null]` picks the nullable
member exactly when the field is nullable; when no ancestor is registered
it fails with the NotImplementedError message naming the field, and inside
`copy_update` such a resolution failure surfaces with an empty event trace,
i.e. at setup time before any record is encoded or streamed. -/
theorem claim_C8 :
    (∀ (reg : List (copy.FieldKlass × (copy.Encoder × copy.Encoder)))
      (t : copy.Field) (n : List Char),
      copy.get_encoder reg (copy.Field.rel t n) = copy.get_encoder reg t) ∧
    (∀ (reg : List (copy.FieldKlass × (copy.Encoder × copy.Encoder)))
      (pre : List copy.FieldKlass) (cls : copy.FieldKlass)
      (rest : List copy.FieldKlass) (null : Bool) (fname : List Char)
      (enc : copy.Encoder × copy.Encoder),
      (∀ c ∈ pre, copy.regGet reg c = Option.none) →
      copy.regGet reg cls = some enc →
      copy.get_encoder reg (copy.Field.plain (pre ++ cls :: rest) null fname) =
        Except.ok (if null then enc.2 else enc.1)) ∧
    (∀ (reg : List (copy.FieldKlass × (copy.Encoder × copy.Encoder)))
      (mro : List copy.FieldKlass) (null : Bool) (fname : List Char),
      (∀ c ∈ mro, copy.regGet reg c = Option.none) →
      copy.get_encoder reg (copy.Field.plain mro null fname) =
        Except.error ((("no suitable encoder found for field ").data) ++ fname)) ∧
    (∀ (reg : List (copy.FieldKlass × (copy.Encoder × copy.Encoder)))
      (pk : copy.Field) (fields : List copy.Field)
      (fe : List (List Char × copy.Encoder)) (objs : List (List copy.PyVal))
      (m : List Char),
      (pk :: fields).mapM (copy.get_encoder reg) = Except.error m →
      copy.copy_update reg pk fields fe objs = Except.error (m, [])) := by
  refine ⟨?_, ?_, ?_, ?_⟩
  · intro reg t n
    rfl
  · intro reg pre cls rest null fname enc hpre hcls
    have hlk : ∀ pre2 : List copy.FieldKlass,
        (∀ c ∈ pre2, copy.regGet reg c = Option.none) →
        copy.mroLookup reg (pre2 ++ cls :: rest) = some enc := by
      intro pre2
      induction pre2 with
      | nil =>
        intro _
        rw [List.nil_append]
        simp only [copy.mroLookup]
        rw [hcls]
      | cons c cs ih =>
        intro hp
        rw [List.cons_append]
        simp only [copy.mroLookup]
        rw [hp c (List.mem_cons_self c cs)]
        exact ih fun d hd => hp d (List.mem_cons_of_mem c hd)
    simp only [copy.get_encoder]
    rw [hlk pre hpre]
  · intro reg mro null fname hmro
    have hlk : ∀ mro2 : List copy.FieldKlass,
        (∀ c ∈ mro2, copy.regGet reg c = Option.none) →
        copy.mroLookup reg mro2 = Option.none := by
      intro mro2
      induction mro2 with
      | nil =>
        intro _
        rfl
      | cons c cs ih =>
        intro hp
        simp only [copy.mroLookup]
        rw [hp c (List.mem_cons_self c cs)]
        exact ih fun d hd => hp d (List.mem_cons_of_mem c hd)
    simp only [copy.get_encoder]
    rw [hlk mro hmro]
  · intro reg pk fields fe objs m hres
    unfold copy.copy_update
    dsimp only
    rw [hres]

/-- Witness for C8: over the real registry, a custom subclass of
IntegerField resolves to the IntegerField pair with the nullable member
picked for a nullable field; a field registered nowhere in its ancestry
fails with the message naming it, and `copy_update` reports that failure
with an empty trace. -/
theorem claim_C8_witness :
    copy.get_encoder copy.ENCODERS
      (copy.Field.plain [copy.FieldKlass.CustomField, copy.FieldKlass.IntegerField,
        copy.FieldKlass.FieldBase] true (("x").data)) =
      Except.ok copy.IntOrNone ∧
    copy.get_encoder copy.ENCODERS
      (copy.Field.plain [copy.FieldKlass.CustomField] false (("y").data)) =
      Except.error ((("no suitable encoder found for field ").data) ++ ("y").data) ∧
    copy.copy_update copy.ENCODERS
      (copy.Field.plain [copy.FieldKlass.CustomField] false (("y").data)) [] [] [] =
      Except.error ((("no suitable encoder found for field ").data) ++ ("y").data, []) := by
  refine ⟨?_, ?_, ?_⟩
  · exact claim_C8.2.1 copy.ENCODERS [copy.FieldKlass.CustomField]
      copy.FieldKlass.IntegerField [copy.FieldKlass.FieldBase] true (("x").data)
      (copy.Int, copy.IntOrNone)
      (by
        intro c hc
        rw [List.mem_singleton] at hc
        subst hc
        rfl)
      rfl
  · exact claim_C8.2.2.1 copy.ENCODERS [copy.FieldKlass.CustomField] false (("y").data)
      (by
        intro c hc
        rw [List.mem_singleton] at hc
        subst hc
        rfl)
  · exact claim_C8.2.2.2 copy.ENCODERS
      (copy.Field.plain [copy.FieldKlass.CustomField] false (("y").data)) [] [] []
      ((("no suitable encoder found for field ").data) ++ ("y").data)
      (by rfl)

theorem pyReplace_bounded_split (p : Char) (ps rep : List Char) (ch : Char)
    (hch : ch ∉ p :: ps) :
    ∀ (n : Nat) (xs ys : List Char), xs.length ≤ n →
      copy.pyReplace p ps rep (xs ++ ch :: ys) =
        copy.pyReplace p ps rep xs ++ ch :: copy.pyReplace p ps rep ys := by
  have hnil : ∀ ys : List Char, copy.pyReplace p ps rep ([] ++ ch :: ys) =
      copy.pyReplace p ps rep [] ++ ch :: copy.pyReplace p ps rep ys := by
    intro ys
    rw [copy.pyReplace_nil, List.nil_append, List.nil_append, copy.pyReplace_cons]
    have hnp : ¬ (p :: ps).isPrefixOf (ch :: ys) = true := by
      intro hpf
      rw [ List.isPrefixOf_iff_prefix] at hpf
      rcases hpf with ⟨t, ht⟩
      rw [List.cons_append] at ht
      exact hch ((List.cons.inj ht).1 ▸ List.mem_cons_self p ps)
    rw [if_neg hnp]
  intro n
  induction n with
  | zero =>
    intro xs ys hlen
    have hxs : xs = [] := List.eq_nil_of_length_eq_zero (Nat.le_zero.mp hlen)
    subst hxs
    exact hnil ys
  | succ m ih =>
    intro xs ys hlen
    cases xs with
    | nil => exact hnil ys
    | cons c xs2 =>
      rw [List.cons_append, copy.pyReplace_cons p ps rep c (xs2 ++ ch :: ys),
        copy.pyReplace_cons p ps rep c xs2]
      have hlen2 : xs2.length ≤ m := by
        simp only [List.length_cons] at hlen
        omega
      by_cases hp : (p :: ps).isPrefixOf (c :: (xs2 ++ ch :: ys)) = true
      · have hp2 := hp
        rw [ List.isPrefixOf_iff_prefix] at hp2
        have hpc : p = c := by
          rcases hp2 with ⟨t, ht⟩
          rw [List.cons_append] at ht
          exact (List.cons.inj ht).1
        have hps : ps <+: xs2 ++ ch :: ys := by
          rcases hp2 with ⟨t, ht⟩
          rw [List.cons_append] at ht
          exact ⟨t, (List.cons.inj ht).2⟩
        have hlp : ps.length ≤ xs2.length := by
          by_contra hgt
          push_neg at hgt
          have h1 : xs2 ++ [ch] <+: xs2 ++ ch :: ys := ⟨ys, by simp⟩
          have h2 : xs2 ++ [ch] <+: ps := by
            apply List.prefix_of_prefix_length_le h1 hps
            rw [List.length_append, List.length_singleton]
            omega
          exact hch (List.mem_cons_of_mem p (h2.subset (by simp)))
        have hpx : ps <+: xs2 :=
          List.prefix_of_prefix_length_le hps (List.prefix_append xs2 (ch :: ys)) hlp
        have hpf2 : (p :: ps).isPrefixOf (c :: xs2) = true := by
          rw [ List.isPrefixOf_iff_prefix]
          rcases hpx with ⟨t2, ht2⟩
          exact ⟨t2, by rw [List.cons_append, hpc, ht2]⟩
        rw [if_pos hp, if_pos hpf2]
        rw [List.drop_append_of_le_length hlp]
        have hd : (xs2.drop ps.length).length ≤ m := by
          rw [List.length_drop]
          omega
        rw [ih (xs2.drop ps.length) ys hd, List.append_assoc]
      · have hpf2 : ¬ (p :: ps).isPrefixOf (c :: xs2) = true := by
          intro h2
          apply hp
          rw [ List.isPrefixOf_iff_prefix] at h2 ⊢
          apply h2.trans
          rw [← List.cons_append]
          exact List.prefix_append (c :: xs2) (ch :: ys)
        rw [if_neg hp, if_neg hpf2]
        rw [ih xs2 ys hlen2, List.cons_append]

theorem pyReplace_split (p : Char) (ps rep : List Char) (ch : Char)
    (hch : ch ∉ p :: ps) (xs ys : List Char) :
    copy.pyReplace p ps rep (xs ++ ch :: ys) =
      copy.pyReplace p ps rep xs ++ ch :: copy.pyReplace p ps rep ys :=
  pyReplace_bounded_split p ps rep ch hch xs.length xs ys (Nat.le_refl _)

theorem pyReplace_id (p : Char) (ps rep : List Char) :
    ∀ s, ¬ copy.occursIn (p :: ps) s → copy.pyReplace p ps rep s = s := by
  intro s
  induction s with
  | nil => intro _; exact copy.pyReplace_nil p ps rep
  | cons c rest ih =>
    intro hno
    rw [copy.pyReplace_cons]
    have hnp : ¬ (p :: ps).isPrefixOf (c :: rest) = true := by
      intro hpf
      rw [ List.isPrefixOf_iff_prefix] at hpf
      rcases hpf with ⟨t, ht⟩
      exact hno ⟨[], t, by rw [List.nil_append]; exact ht.symm⟩
    rw [if_neg hnp]
    rw [ih fun hocc => hno (by
      rcases hocc with ⟨a, b, hr⟩
      exact ⟨c :: a, b, by rw [hr]; simp [List.cons_append, List.append_assoc]⟩)]

theorem occursIn_pre (pre pat : List Char) (s : List Char)
    (h : copy.occursIn (pre ++ pat) s) : copy.occursIn pat s := by
  rcases h with ⟨a, b, hs⟩
  exact ⟨a ++ pre, b, by rw [hs]; simp [List.append_assoc]⟩

theorem pyReplace_joinSep (p : Char) (ps rep : List Char)
    (hsep : ',' ∉ p :: ps) :
    ∀ L : List (List Char), copy.pyReplace p ps rep (copy.joinSep ',' L) =
      copy.joinSep ',' (L.map (copy.pyReplace p ps rep)) := by
  intro L
  induction L with
  | nil => exact copy.pyReplace_nil p ps rep
  | cons x xs ih =>
    cases xs with
    | nil => rfl
    | cons y ys =>
      rw [show copy.joinSep ',' (x :: y :: ys) =
        x ++ ',' :: copy.joinSep ',' (y :: ys) from rfl]
      rw [pyReplace_split p ps rep ',' hsep x (copy.joinSep ',' (y :: ys))]
      rw [ih]
      rfl

theorem pyReplace_colpart (p : Char) (ps rep : List Char)
    (hsp : ' ' ∉ p :: ps) (nm ty : List Char)
    (hn : ¬ copy.occursIn (p :: ps) nm) :
    copy.pyReplace p ps rep (nm ++ ' ' :: ty) =
      nm ++ ' ' :: copy.pyReplace p ps rep ty := by
  rw [pyReplace_split p ps rep ' ' hsp nm ty, pyReplace_id p ps rep nm hn]

theorem not_occursIn_serial_short (s : List Char) (h : s.length < 6) :
    ¬ copy.occursIn ((("serial").data)) s := by
  rintro ⟨a, b, heq⟩
  have hl := congrArg List.length heq
  rw [List.length_append, List.length_append] at hl
  have h6 : ((("serial").data)).length = 6 := rfl
  rw [h6] at hl
  omega

/-- Counterexample for C9: the serial replaces run over the whole joined
string, so a column NAME containing "serial" is mangled: the column
definition list [("serial_no", "text")] renders as "integer_no text", not
the claimed verbatim "serial_no text". -/
theorem claim_C9_counterexample :
    copy.create_columns [((("serial_no").data), ("text").data)] =
      ("integer_no text").data ∧
    copy.create_columns [((("serial_no").data), ("text").data)] ≠
      ("serial_no text").data := by
  constructor
  · decide
  · decide

/-- C9 (amended): when no column NAME contains "serial", create_columns
comma-joins each "name type" pair with the name verbatim and the type
rewritten by the three serial replaces; on a whole type token these turn
bigserial into bigint, smallserial into smallint, serial into integer, and
leave any serial-free type verbatim.  (The original claim is refuted by
`claim_C9_counterexample`: the replaces also rewrite column names.) -/
theorem claim_C9 :
    (∀ defs : List (List Char × List Char),
      (∀ kv ∈ defs, ¬ copy.occursIn ((("serial").data)) kv.1) →
      copy.create_columns defs =
        copy.joinSep ',' (defs.map fun kv =>
          kv.1 ++ ' ' :: copy.stripSerialType kv.2)) ∧
    copy.stripSerialType (("bigserial").data) = ("bigint").data ∧
    copy.stripSerialType (("smallserial").data) = ("smallint").data ∧
    copy.stripSerialType (("serial").data) = ("integer").data ∧
    (∀ v : List Char, ¬ copy.occursIn ((("serial").data)) v →
      copy.stripSerialType v = v) := by
  refine ⟨?_, by decide, by decide, by decide, ?_⟩
  · intro defs hnames
    unfold copy.create_columns
    have h1 : copy.pyReplace 'b' (("igserial").data) (("bigint").data)
        (copy.joinSep ',' (defs.map fun kv => kv.1 ++ ' ' :: kv.2)) =
        copy.joinSep ',' (defs.map fun kv => kv.1 ++ ' ' ::
          copy.pyReplace 'b' (("igserial").data) (("bigint").data) kv.2) := by
      rw [pyReplace_joinSep _ _ _ (by decide)]
      congr 1
      rw [List.map_map]
      apply List.map_congr_left
      intro kv hkv
      show copy.pyReplace 'b' (("igserial").data) (("bigint").data)
        (kv.1 ++ ' ' :: kv.2) = _
      exact pyReplace_colpart _ _ _ (by decide) kv.1 kv.2
        fun hocc => hnames kv hkv
          (occursIn_pre (("big").data) (("serial").data) kv.1 hocc)
    have h2 : copy.pyReplace 's' (("mallserial").data) (("smallint").data)
        (copy.joinSep ',' (defs.map fun kv => kv.1 ++ ' ' ::
          copy.pyReplace 'b' (("igserial").data) (("bigint").data) kv.2)) =
        copy.joinSep ',' (defs.map fun kv => kv.1 ++ ' ' ::
          copy.pyReplace 's' (("mallserial").data) (("smallint").data)
            (copy.pyReplace 'b' (("igserial").data) (("bigint").data) kv.2)) := by
      rw [pyReplace_joinSep _ _ _ (by decide)]
      congr 1
      rw [List.map_map]
      apply List.map_congr_left
      intro kv hkv
      show copy.pyReplace 's' (("mallserial").data) (("smallint").data)
        (kv.1 ++ ' ' :: copy.pyReplace 'b' (("igserial").data) (("bigint").data) kv.2) = _
      exact pyReplace_colpart _ _ _ (by decide) kv.1 _
        fun hocc => hnames kv hkv
          (occursIn_pre (("small").data) (("serial").data) kv.1 hocc)
    have h3 : copy.pyReplace 's' (("erial").data) (("integer").data)
        (copy.joinSep ',' (defs.map fun kv => kv.1 ++ ' ' ::
          copy.pyReplace 's' (("mallserial").data) (("smallint").data)
            (copy.pyReplace 'b' (("igserial").data) (("bigint").data) kv.2))) =
        copy.joinSep ',' (defs.map fun kv => kv.1 ++ ' ' ::
          copy.pyReplace 's' (("erial").data) (("integer").data)
            (copy.pyReplace 's' (("mallserial").data) (("smallint").data)
              (copy.pyReplace 'b' (("igserial").data) (("bigint").data) kv.2))) := by
      rw [pyReplace_joinSep _ _ _ (by decide)]
      congr 1
      rw [List.map_map]
      apply List.map_congr_left
      intro kv hkv
      show copy.pyReplace 's' (("erial").data) (("integer").data)
        (kv.1 ++ ' ' :: copy.pyReplace 's' (("mallserial").data) (("smallint").data)
          (copy.pyReplace 'b' (("igserial").data) (("bigint").data) kv.2)) = _
      exact pyReplace_colpart _ _ _ (by decide) kv.1 _
        fun hocc => hnames kv hkv
          (occursIn_pre [] (("serial").data) kv.1 hocc)
    rw [h1, h2, h3]
    rfl
  · intro v hv
    unfold copy.stripSerialType
    rw [pyReplace_id 'b' (("igserial").data) (("bigint").data) v
      fun h => hv (occursIn_pre (("big").data) (("serial").data) v h)]
    rw [pyReplace_id 's' (("mallserial").data) (("smallint").data) v
      fun h => hv (occursIn_pre (("small").data) (("serial").data) v h)]
    rw [pyReplace_id 's' (("erial").data) (("integer").data) v
      fun h => hv (occursIn_pre [] (("serial").data) v h)]

/-- Witness for C9: a two-column definition with serial-free names, one
bigserial column and one plain text column, rendered by the amended
per-column description, plus the serial-free type fixpoint at "text". -/
theorem claim_C9_witness :
    copy.create_columns [((("id").data), ("bigserial").data),
      ((("name").data), ("text").data)] =
      copy.joinSep ',' ([((("id").data), ("bigserial").data),
        ((("name").data), ("text").data)].map fun kv =>
          kv.1 ++ ' ' :: copy.stripSerialType kv.2) ∧
    copy.stripSerialType (("text").data) = ("text").data := by
  constructor
  · apply claim_C9.1
    intro kv hkv
    apply not_occursIn_serial_short
    simp only [List.mem_cons, List.not_mem_nil, or_false] at hkv
    rcases hkv with h | h
    · rw [h]
      decide
    · rw [h]
      decide
  · exact claim_C9.2.2.2.2 (("text").data)
      (not_occursIn_serial_short (("text").data) (by decide))
